import Mathlib

/-!
Verification development for the EQ2Emu world-database updater
(`worldUpdater.js`): a metadata-only catalog / plan / apply pipeline.

The JavaScript source is shallowly embedded:
* pure string manipulation (table-name derivation, grouping, SQL statement
  splitting, option-driven SQL transformation, plan building) is translated to
  executable Lean functions over `String` / `List Char`;
* the asynchronous executor `applyPlan` is modelled as a deterministic function
  of oracles (database responses, per-step archive loads, progress-sink
  behaviour) that returns the ordered trace of issued events together with the
  JavaScript-level outcome (`Except` models `throw`);
* JavaScript strings are modelled as Lean strings (the repository's data is
  ASCII); `String.toLower` stands for `toLowerCase`, and `jsIsSpace` models the
  characters matched by the `\s` class / `String.prototype.trim` that actually
  occur in SQL dumps.
-/

namespace WorldUpdater

/-- Characters treated as whitespace by the embedding of JavaScript's `\s`
class and `String.prototype.trim` (space, tab, LF, CR, VT, FF, NBSP, BOM). -/
def jsIsSpace (c : Char) : Bool :=
  c = ' ' || c = Char.ofNat 9 || c = Char.ofNat 10 || c = Char.ofNat 13 ||
  c = Char.ofNat 11 || c = Char.ofNat 12 || c = Char.ofNat 160 || c = Char.ofNat 65279

/-- `trim` on a character list: drop leading and trailing whitespace. -/
def jsTrimList (l : List Char) : List Char :=
  ((l.dropWhile jsIsSpace).reverse.dropWhile jsIsSpace).reverse

/-- Embedding of JavaScript `String.prototype.trim`. -/
def jsTrim (s : String) : String :=
  String.mk (jsTrimList s.data)

/-- Embedding of `String.prototype.toLowerCase` (ASCII data). -/
def jsToLower (s : String) : String :=
  String.mk (s.data.map Char.toLower)

/-- Embedding of `String.prototype.endsWith` / a `…$` regex test. -/
def jsEndsWith (s suf : String) : Bool :=
  List.isPrefixOf suf.data.reverse s.data.reverse

/-- Embedding of `String.prototype.startsWith`. -/
def jsStartsWith (s pre : String) : Bool :=
  List.isPrefixOf pre.data s.data

/-- Helper for `String.prototype.split(sep)`: split a character list. -/
def splitOnCharGo (sep : Char) : List Char → List Char → List (List Char)
  | acc, [] => [acc.reverse]
  | acc, c :: cs =>
    if c = sep then acc.reverse :: splitOnCharGo sep [] cs
    else splitOnCharGo sep (c :: acc) cs

/-- Embedding of `String.prototype.split('/')` (`''.split('/')` is `['']`). -/
def jsSplitSlash (s : String) : List String :=
  (splitOnCharGo '/' [] s.data).map String.mk

/-- Embeds `DANGEROUS_TABLES` from `worldUpdater.js`: the fixed Danger Set.
The source builds it by splitting one comma-separated literal on `,` and
trimming each piece; the resulting elements are written out here (including
the source's `characer_skills` typo, preserved verbatim). -/
def DANGEROUS_TABLES : List String :=
  ["char_colors", "character_aa", "character_achievements",
   "character_achievements_items", "character_buyback", "character_claim_items",
   "character_collections", "character_details", "character_factions",
   "character_history", "character_house_deposits", "character_house_history",
   "character_houses", "character_instances", "character_items",
   "character_items_group_members", "character_languages",
   "character_lua_history", "character_macros", "character_mail",
   "character_pictures", "character_properties", "character_quest_progress",
   "character_quest_rewards", "character_quest_temporary_rewards",
   "character_quests", "character_recipe_books", "character_recipes",
   "character_skillbar", "characer_skills", "character_social",
   "character_spell_effect_targets", "character_spell_effects",
   "character_spells", "character_spirit_shards", "character_titles",
   "characters", "charactersProperties", "charactersproperties", "statistics",
   "web_users", "character_custom_spell_dataindex",
   "character_custom_spell_display", "character_custom_spell_data",
   "guild_colors", "guild_event_filters", "guild_events", "guild_members",
   "guild_point_history", "guild_ranks", "guild_recruiting", "guilds",
   "spawn_location_entry_houses", "spawn_location_name_houses",
   "spawn_location_placement_houses", "spawn_houses", "spawn_signs_houses",
   "spawn_widgets_houses", "spawn_objects_houses", "spawn_ground_houses",
   "spawn_npcs_houses", "broker_seller_log", "broker_items", "broker_sellers"]

/-- `DANGEROUS_TABLES.has(t)` (JS `Set` membership: exact string equality). -/
def isDangerous (t : String) : Bool :=
  DANGEROUS_TABLES.contains t

/-- Embeds `GROUP_PREFIXES`: ordered (group name, name-start patterns) pairs;
JS object literals iterate in insertion order, preserved here as a list. -/
def GROUP_PREFIXES : List (String × List String) :=
  [("Zones & Geography", ["zones", "zone", "zone_", "zoneaccess", "door", "doors", "transport", "navmesh", "waypoint", "waypoints", "region", "harvest_node", "harvest_nodes"]),
   ("Loot & Drops", ["loot_", "loot", "chest_traps", "spawn_loot"]),
   ("Spawns & Placement", ["spawn_", "spawn", "spawnlocation", "grid", "path", "waypoint"]),
   ("NPCs & Factions", ["npc_", "npc", "faction", "factions", "language", "languages"]),
   ("Items & Appearance", ["item_", "items", "appear", "appearance", "model", "models", "item_appearance", "equip"]),
   ("Quests", ["quest_", "quests", "quest", "journal", "dialogue", "conversation", "text"]),
   ("Merchants & Economy", ["merchant", "vendors", "vendor", "shop", "economy", "broker_"]),
   ("Spells & Combat", ["spell_", "spells", "spell", "ability", "combat", "proc", "buff", "effect"]),
   ("Tradeskills & Recipes", ["recipe", "recipes", "tradeskill", "craft", "combine"]),
   ("Rules & Systems", ["rule", "rules", "server", "setting", "settings", "world_"]),
   ("Books & Text", ["book_", "books", "book", "texts", "text", "npc_text"])]

/-- Embeds `assignGroup(tableName)`: lowercase the name, return the first
group one of whose patterns is a string-start of the name, else the catch-all. -/
def assignGroup (tableName : String) : String :=
  let t := jsToLower tableName
  match GROUP_PREFIXES.find? (fun gp => gp.2.any (fun p => jsStartsWith t p)) with
  | some gp => gp.1
  | none => "Other / Misc"

/-- `(entryName || '').split('/').pop() || ''`: the entry's basename. -/
def entryBase (entryName : String) : String :=
  ((jsSplitSlash entryName).getLast?).getD ""

/-- `zipName.replace(/\.zip$/i, '')`: strip one trailing `.zip`, case-
insensitively (the zip name is not reduced to a basename first). -/
def zipStripped (zipName : String) : String :=
  if jsEndsWith (jsToLower zipName) ".zip" then zipName.dropRight 4 else zipName

/-- Embeds `detectTableNameFromPaths(entryName, zipName)`: basename of the
entry (after the last `/`); if it ends in `.sql` case-insensitively, strip
that extension; otherwise the zip name with a trailing `.zip` (case-
insensitive) removed, falling back to the entry basename, then to the
`unknown_table` sentinel (JS `zipBase || base || 'unknown_table'`). -/
def detectTableNameFromPaths (entryName zipName : String) : String :=
  if jsEndsWith (jsToLower (entryBase entryName)) ".sql" then (entryBase entryName).dropRight 4
  else if zipStripped zipName ≠ "" then zipStripped zipName
  else if entryBase entryName ≠ "" then entryBase entryName
  else "unknown_table"

/-- One metadata-only catalog row (`worldUpdater.js` catalog entries).  The
`zip` re-fetch block is abstracted away here: the executor model receives the
per-step SQL via a load oracle instead. -/
structure CatalogRow where
  table : String
  group : String
  fileName : String
  entryName : String
deriving Repr, DecidableEq

/-- The `options` record echoed back by `buildUpdatePlan`. -/
structure PlanOptions where
  includeChars : Bool
  mode : String
  truncate : Bool
deriving Repr, DecidableEq

/-- One plan step (a catalog row minus nothing the executor needs; no SQL). -/
structure PlanStep where
  table : String
  group : String
  fileName : String
  entryName : String
deriving Repr, DecidableEq

/-- A plan: ordered steps plus the effective options. -/
structure UpdatePlan where
  steps : List PlanStep
  options : PlanOptions
deriving Repr, DecidableEq

/-- The selection filter inside `buildUpdatePlan`: a row is chosen when its
group is in `selectedGroups` (exact `Set.has`) or its lowercased table name is
in the lowercased `selectedTables`. -/
def chosenRows (catalog : List CatalogRow) (selectedTables selectedGroups : List String) :
    List CatalogRow :=
  let tableSet := selectedTables.map jsToLower
  catalog.filter (fun row => selectedGroups.contains row.group || tableSet.contains (jsToLower row.table))

/-- The dangerous-table names dropped (and reported via `logW`) by
`buildUpdatePlan` when `includeChars` is false. -/
def excludedDangerous (chosen : List CatalogRow) : List String :=
  (chosen.filter (fun r => isDangerous r.table)).map (fun r => r.table)

/-- The names `buildUpdatePlan` reports as excluded for a given invocation. -/
def reportedExcluded (catalog : List CatalogRow) (selectedTables selectedGroups : List String)
    (includeChars : Bool) : List String :=
  if includeChars then []
  else excludedDangerous (chosenRows catalog selectedTables selectedGroups)

/-- The dedup loop of `buildUpdatePlan` (`seen` set, first occurrence wins). -/
def dedupByTable : List CatalogRow → List String → List PlanStep
  | [], _ => []
  | row :: rest, seen =>
    if seen.contains row.table then dedupByTable rest seen
    else { table := row.table, group := row.group, fileName := row.fileName,
           entryName := row.entryName } :: dedupByTable rest (row.table :: seen)

/-- Embeds `buildUpdatePlan({catalog, selectedTables, selectedGroups,
includeChars, mode, truncate})`. -/
def buildUpdatePlan (catalog : List CatalogRow) (selectedTables selectedGroups : List String)
    (includeChars : Bool) (mode : String) (truncate : Bool) : UpdatePlan :=
  let chosen := chosenRows catalog selectedTables selectedGroups
  let chosen2 := if includeChars then chosen else chosen.filter (fun r => !(isDangerous r.table))
  { steps := dedupByTable chosen2 [],
    options := { includeChars := includeChars, mode := mode, truncate := truncate } }

/-! ### SQL statement splitter (`splitSqlStatements`) -/

/-- Single-quote character. -/
def cSQ : Char := Char.ofNat 39

/-- Double-quote character. -/
def cDQ : Char := Char.ofNat 34

/-- Backslash character. -/
def cBS : Char := Char.ofNat 92

/-- Newline character. -/
def cNL : Char := Char.ofNat 10

/-- Lexer configuration of `splitSqlStatements`: emitted statements, current
fragment, and the four state booleans of the source (`inS`, `inD`, `inLine`,
`inBlock`; all false means the `Normal` state). -/
structure SplitState where
  out : List (List Char)
  cur : List Char
  inS : Bool
  inD : Bool
  inLine : Bool
  inBlock : Bool
deriving Repr, DecidableEq

/-- One iteration of the `while` loop of `splitSqlStatements`, given the
current character and the lookahead `sql[i + 1]`; returns the new state and
how far `i` advanced (1 or 2).  Branches mirror the source order. -/
def splitStep (st : SplitState) (ch : Char) (next : Option Char) : SplitState × Nat :=
  if st.inLine then
    if ch = cNL then ({ st with inLine := false, cur := st.cur ++ [ch] }, 1)
    else ({ st with cur := st.cur ++ [ch] }, 1)
  else if st.inBlock then
    if ch = '*' && next = some '/' then ({ st with inBlock := false, cur := st.cur ++ ['*', '/'] }, 2)
    else ({ st with cur := st.cur ++ [ch] }, 1)
  else if st.inS then
    if ch = cBS then ({ st with cur := st.cur ++ ch :: next.toList }, 2)
    else if ch = cSQ then ({ st with inS := false, cur := st.cur ++ [ch] }, 1)
    else ({ st with cur := st.cur ++ [ch] }, 1)
  else if st.inD then
    if ch = cBS then ({ st with cur := st.cur ++ ch :: next.toList }, 2)
    else if ch = cDQ then ({ st with inD := false, cur := st.cur ++ [ch] }, 1)
    else ({ st with cur := st.cur ++ [ch] }, 1)
  else
    if ch = '-' && next = some '-' then ({ st with inLine := true, cur := st.cur ++ ['-', '-'] }, 2)
    else if ch = '/' && next = some '*' then ({ st with inBlock := true, cur := st.cur ++ ['/', '*'] }, 2)
    else if ch = cSQ then ({ st with inS := true, cur := st.cur ++ [ch] }, 1)
    else if ch = cDQ then ({ st with inD := true, cur := st.cur ++ [ch] }, 1)
    else if ch = ';' then ({ st with out := st.out ++ [st.cur ++ [';']], cur := [] }, 1)
    else ({ st with cur := st.cur ++ [ch] }, 1)

/-- The full scanning loop of `splitSqlStatements` over the remaining input
(structured so that the advance-by-two case is a structural recursion: with
at most one character left, both advances end the loop). -/
def splitLoop : List Char → SplitState → SplitState
  | [], st => st
  | [c], st => (splitStep st c none).1
  | c1 :: c2 :: rest, st =>
    if (splitStep st c1 (some c2)).2 = 2 then splitLoop rest (splitStep st c1 (some c2)).1
    else splitLoop (c2 :: rest) (splitStep st c1 (some c2)).1

/-- The initial lexer state (`out = []`, `cur = ''`, all flags false). -/
def initSplitState : SplitState :=
  { out := [], cur := [], inS := false, inD := false, inLine := false, inBlock := false }

/-- Embeds `splitSqlStatements(sql)`: run the lexer, then push the trailing
fragment only when its trim is non-empty. -/
def splitSqlStatements (sql : String) : List String :=
  (if jsTrimList (splitLoop sql.data initSplitState).cur ≠ [] then
    (splitLoop sql.data initSplitState).out ++ [(splitLoop sql.data initSplitState).cur]
  else (splitLoop sql.data initSplitState).out).map String.mk

/-! ### Option-driven SQL transformation (`transformSqlForOptions`) -/

/-- JS regex `\w`: ASCII letter, digit or underscore. -/
def isWordChar (c : Char) : Bool :=
  c.isAlpha || c.isDigit || c = '_'

/-- `\b` holds before a word character when the previous character (if any)
is not a word character. -/
def boundaryBefore : Option Char → Bool
  | none => true
  | some c => !isWordChar c

/-- `\b` holds after a word character when the next character (if any) is not
a word character. -/
def boundaryAfterOk : List Char → Bool
  | [] => true
  | c :: _ => !isWordChar c

/-- Case-insensitive literal match of a (lowercase) pattern at the start of
the input; returns the remainder on success. -/
def matchCI : List Char → List Char → Option (List Char)
  | [], s => some s
  | _ :: _, [] => none
  | p :: ps, c :: cs => if c.toLower = p then matchCI ps cs else none

/-- Greedy `\s+` at the start of the input: requires at least one whitespace
character and consumes the whole run (the following literal is never
whitespace, so greediness is exact here). -/
def takeWsPlus : List Char → Option (List Char)
  | [] => none
  | c :: cs => if jsIsSpace c then some (cs.dropWhile jsIsSpace) else none

/-- Attempts `INSERT\s+INTO\b` (case-insensitive) at the start of the input;
the preceding `\b` is checked by the caller.  Returns the remainder. -/
def matchInsertInto (s : List Char) : Option (List Char) :=
  match matchCI ("insert".data) s with
  | none => none
  | some r1 =>
    match takeWsPlus r1 with
    | none => none
    | some r2 =>
      match matchCI ("into".data) r2 with
      | none => none
      | some r3 => if boundaryAfterOk r3 then some r3 else none

theorem matchCI_length_le (p : List Char) :
    ∀ s r, matchCI p s = some r → r.length ≤ s.length := by
  induction p with
  | nil =>
    intro s r h
    simp only [matchCI, Option.some.injEq] at h
    subst h
    exact le_refl _
  | cons a ps ih =>
    intro s r h
    cases s with
    | nil => simp [matchCI] at h
    | cons c cs =>
      simp only [matchCI] at h
      by_cases hc : c.toLower = a
      · simp only [hc, if_true] at h
        have := ih cs r h
        simp only [List.length_cons]
        omega
      · simp [hc] at h

theorem takeWsPlus_length_lt (s r : List Char) (h : takeWsPlus s = some r) :
    r.length < s.length := by
  cases s with
  | nil => simp [takeWsPlus] at h
  | cons c cs =>
    simp only [takeWsPlus] at h
    by_cases hc : jsIsSpace c
    · simp only [hc, if_true, Option.some.injEq] at h
      subst h
      have := (List.dropWhile_sublist (l := cs) jsIsSpace).length_le
      simp only [List.length_cons]
      omega
    · simp [hc] at h

theorem matchInsertInto_length_lt (s r : List Char) (h : matchInsertInto s = some r) :
    r.length < s.length := by
  cases h1 : matchCI ("insert".data) s with
  | none => simp [matchInsertInto, h1] at h
  | some r1 =>
    cases h2 : takeWsPlus r1 with
    | none => simp [matchInsertInto, h1, h2] at h
    | some r2 =>
      cases h3 : matchCI ("into".data) r2 with
      | none => simp [matchInsertInto, h1, h2, h3] at h
      | some r3 =>
        simp only [matchInsertInto, h1, h2, h3] at h
        by_cases hb : boundaryAfterOk r3
        · simp only [hb, if_true, Option.some.injEq] at h
          subst h
          have e1 := matchCI_length_le _ s r1 h1
          have e2 := takeWsPlus_length_lt r1 r2 h2
          have e3 := matchCI_length_le _ r2 r3 h3
          omega
        · simp [hb] at h

/-- The scan of `out.replace(/\bINSERT\s+INTO\b/gi, 'REPLACE INTO')`: walk the
text remembering the previous character; at each word boundary attempt the
pattern; on a match emit the literal replacement and continue after the match
(the regex engine resumes at `lastIndex`; the character before the next
position is the final `O` of the matched `INTO`, a word character).  The
fuel argument only makes the recursion structural: a match consumes at least
one input character, so fuel equal to the input length never runs out. -/
def replaceScan : Nat → Option Char → List Char → List Char
  | 0, _, s => s
  | _ + 1, _, [] => []
  | fuel + 1, prev, c :: cs =>
    if boundaryBefore prev then
      match matchInsertInto (c :: cs) with
      | some r => ("REPLACE INTO".data) ++ replaceScan fuel (some 'O') r
      | none => c :: replaceScan fuel (some c) cs
    else c :: replaceScan fuel (some c) cs

/-- Embeds the `mode == 'replace'` rewrite of `transformSqlForOptions`. -/
def replaceInsertInto (s : String) : String :=
  String.mk (replaceScan s.data.length none s.data)

/-- A JavaScript `Error` as the updater uses it: message, optional driver
fields, and the `meta` enrichment fields (`sqlMessage` and the nested
`original` reference are not modelled). -/
structure JsError where
  message : String
  code : Option String := none
  errno : Option Int := none
  sqlState : Option String := none
  metaTable : Option String := none
  metaStmtIndex : Option Nat := none
  metaPreview : Option String := none
deriving Repr, DecidableEq

/-- Embeds `transformSqlForOptions(sql, table, options)`: optional `TRUNCATE`
prepend, then mode dispatch; unknown modes throw `Unsupported mode: …`. -/
def transformSqlForOptions (sql table : String) (options : PlanOptions) :
    Except JsError String :=
  let out0 := sql
  let out1 := if options.truncate then "TRUNCATE TABLE `" ++ table ++ "`;\n" ++ out0 else out0
  if options.mode = "replace" then Except.ok (replaceInsertInto out1)
  else if options.mode ≠ "apply" then
    Except.error { message := "Unsupported mode: " ++ options.mode }
  else Except.ok out1

/-! ### Error helpers (`errMsg`, `enrichSqlError`) -/

/-- Embeds `errMsg(e)`: the message, or `'Unknown error'` when falsy
(`sqlMessage` is not modelled). -/
def errMsg (e : JsError) : String :=
  if e.message ≠ "" then e.message else "Unknown error"

/-- The `extra` argument of `enrichSqlError`. -/
structure ErrExtra where
  table : Option String := none
  stmtIndex : Option Nat := none
  preview : Option String := none
deriving Repr, DecidableEq

/-- Left brace character as a string. -/
def lbr : String := String.singleton (Char.ofNat 123)

/-- Right brace character as a string. -/
def rbr : String := String.singleton (Char.ofNat 125)

/-- Double-quote character as a string. -/
def dq : String := String.singleton cDQ

/-- One character of `JSON.stringify` string escaping (the escapes relevant
to SQL previews; other control characters are kept verbatim). -/
def jsonEscapeChar (c : Char) : String :=
  if c = cDQ then String.mk [cBS, cDQ]
  else if c = cBS then String.mk [cBS, cBS]
  else if c = cNL then String.mk [cBS, 'n']
  else if c = Char.ofNat 13 then String.mk [cBS, 'r']
  else if c = Char.ofNat 9 then String.mk [cBS, 't']
  else String.singleton c

/-- `JSON.stringify` of a string value. -/
def jsonQuote (s : String) : String :=
  dq ++ String.join (s.data.map jsonEscapeChar) ++ dq

/-- `s.replace(/\s+/g, ' ')`, char by char: the boolean records whether the
current position is inside a whitespace run whose single space was already
emitted. -/
def collapseGo : Bool → List Char → List Char
  | _, [] => []
  | b, c :: cs =>
    if jsIsSpace c then
      if b then collapseGo true cs else ' ' :: collapseGo true cs
    else c :: collapseGo false cs

/-- `s.replace(/\s+/g, ' ')`: collapse each whitespace run to one space. -/
def collapseWs (l : List Char) : List Char :=
  collapseGo false l

/-- The failing-statement preview: whitespace collapsed, first 300 chars. -/
def previewOf (s : String) : String :=
  String.mk ((collapseWs s.data).take 300)

/-- `filter(Boolean).join(' | ')` over optional message parts. -/
def joinBar (parts : List (Option String)) : String :=
  String.intercalate " | " (parts.filterMap id)

/-- Embeds `enrichSqlError(err, extra)`: builds the enriched message and
carries the driver fields and `meta` forward. -/
def enrichSqlError (err : JsError) (extra : ErrExtra) : JsError :=
  { message := joinBar
      [some (errMsg err),
       extra.table.map (fun t => "table=" ++ t),
       extra.stmtIndex.map (fun i => "stmtIndex=" ++ toString i),
       extra.preview.map (fun p => "preview=" ++ jsonQuote p),
       err.code.map (fun c => "code=" ++ c),
       err.errno.map (fun n => "errno=" ++ toString n),
       err.sqlState.map (fun s => "sqlState=" ++ s)],
    code := err.code, errno := err.errno, sqlState := err.sqlState,
    metaTable := extra.table, metaStmtIndex := extra.stmtIndex,
    metaPreview := extra.preview }

/-! ### Plan executor model (`applyPlan`, `runSqlSafely`, `loadSqlForStep`)

The asynchronous executor is modelled as a deterministic function of an
environment of oracles.  Its observable behaviour is the ordered trace of
issued effects (archive fetches and database commands, each database command
annotated with the owning step / statement index as instrumentation and with
whether the database accepted it) plus the JavaScript-level outcome. -/

/-- One observable effect of `applyPlan`.  `exec none none s ok` is one of
the executor's own control statements; `exec (some k) (some i) s ok` is
statement `i` of step `k`. -/
inductive Ev where
  | fetch (stepIdx : Nat)
  | exec (stepIdx : Option Nat) (stmtIdx : Option Nat) (sql : String) (ok : Bool)
deriving Repr, DecidableEq

/-- The oracle environment for `applyPlan`:
* `dbRes tr sql` — the database's response to `sql` given the effects issued
  so far (`none` = success, `some e` = the query rejects with `e`);
* `loadStep k` — the outcome of `loadSqlForStep` for step `k` (archive
  download, entry lookup and decoding are abstracted into this oracle);
* `onLog` — the caller's log sink: `none` models a non-function `onLog`
  (the `typeof onLog === 'function'` guard); `some f` with `f msg = true`
  models the sink throwing on that message;
* `sinkError msg` — the exception value a throwing sink raises. -/
structure ApplyEnv where
  dbRes : List Ev → String → Option JsError
  loadStep : Nat → Except JsError String
  onLog : Option (String → Bool)
  sinkError : String → JsError

/-- The `send` helper of `applyPlan`: calls `onLog` unguarded, so a throwing
sink propagates (`console` logging is not modelled). -/
def sendLog (env : ApplyEnv) (msg : String) : Except JsError Unit :=
  match env.onLog with
  | none => Except.ok ()
  | some f => if f msg then Except.error (env.sinkError msg) else Except.ok ()

/-- `query(conn, sql)`: issue a command, record it in the trace with the
database's verdict, and surface the error on rejection. -/
def runQuery (env : ApplyEnv) (tr : List Ev) (stepIdx stmtIdx : Option Nat)
    (sql : String) : List Ev × Option JsError :=
  match env.dbRes tr sql with
  | none => (tr ++ [Ev.exec stepIdx stmtIdx sql true], none)
  | some e => (tr ++ [Ev.exec stepIdx stmtIdx sql false], some e)

/-- The statement loop of `runSqlSafely`: trim each split statement, skip
empties, execute in order, and on failure wrap the database error with the
0-based statement index and a collapsed ≤300-character preview. -/
def runStmtsFrom (env : ApplyEnv) (k : Nat) :
    List Ev → Nat → List String → List Ev × Option JsError
  | tr, _, [] => (tr, none)
  | tr, i, stmt :: rest =>
    if jsTrim stmt = "" then runStmtsFrom env k tr (i + 1) rest
    else
      match runQuery env tr (some k) (some i) (jsTrim stmt) with
      | (tr', none) => runStmtsFrom env k tr' (i + 1) rest
      | (tr', some e) =>
        (tr', some (enrichSqlError e
          { stmtIndex := some i, preview := some (previewOf (jsTrim stmt)) }))

/-- Embeds `runSqlSafely(conn, sql)` for step `k` (the step index is pure
instrumentation used to tag trace events; the source computes it implicitly
by being called once per step). -/
def runSqlSafely (env : ApplyEnv) (k : Nat) (tr : List Ev) (sql : String) :
    List Ev × Option JsError :=
  runStmtsFrom env k tr 0 (splitSqlStatements sql)

/-- The structured error log line emitted before re-throwing a statement
failure (field order follows the object literal; `undefined` fields are
omitted, as `JSON.stringify` does). -/
def errorLogLine (table : String) (e : JsError) : String :=
  lbr ++ String.intercalate ","
    (List.filterMap id
      [some (jsonQuote "level" ++ ":" ++ jsonQuote "error"),
       some (jsonQuote "table" ++ ":" ++ jsonQuote table),
       e.metaStmtIndex.map (fun i => jsonQuote "stmtIndex" ++ ":" ++ toString i),
       e.metaPreview.map (fun p => jsonQuote "preview" ++ ":" ++ jsonQuote p),
       e.code.map (fun c => jsonQuote "code" ++ ":" ++ jsonQuote c),
       e.errno.map (fun n => jsonQuote "errno" ++ ":" ++ toString n),
       e.sqlState.map (fun s => jsonQuote "sqlState" ++ ":" ++ jsonQuote s),
       some (jsonQuote "message" ++ ":" ++ jsonQuote (errMsg e))]) ++ rbr

/-- `SET FOREIGN_KEY_CHECKS=0;` -/
def fkOffStmt : String := "SET FOREIGN_KEY_CHECKS=0;"

/-- `START TRANSACTION;` -/
def startTxStmt : String := "START TRANSACTION;"

/-- `COMMIT;` -/
def commitStmt : String := "COMMIT;"

/-- `ROLLBACK;` -/
def rollbackStmt : String := "ROLLBACK;"

/-- `SET FOREIGN_KEY_CHECKS=1;` -/
def fkOnStmt : String := "SET FOREIGN_KEY_CHECKS=1;"

/-- The first log message of `applyPlan`. -/
def applyPlanFirstMsg : String := "Disabling FOREIGN_KEY_CHECKS and starting TRANSACTION…"

/-- The body of `applyPlan`'s `try` block: the per-step loop (log line, JIT
fetch, transform, `runSqlSafely`, error enrichment with the owning table)
followed by `send('Committing…')` and `COMMIT;`.  Returns the trace and the
error that escapes the `try` block, if any. -/
def applyStepsLoop (env : ApplyEnv) (options : PlanOptions) :
    List PlanStep → Nat → List Ev → List Ev × Option JsError
  | [], _, tr =>
    match sendLog env "Committing…" with
    | Except.error e => (tr, some e)
    | Except.ok _ =>
      match runQuery env tr none none commitStmt with
      | (tr', none) => (tr', none)
      | (tr', some e) => (tr', some e)
  | step :: rest, k, tr =>
    match sendLog env ("Updating " ++ step.table ++ " (" ++ step.fileName ++ ")…") with
    | Except.error e => (tr, some e)
    | Except.ok _ =>
      match env.loadStep k with
      | Except.error e => (tr ++ [Ev.fetch k], some e)
      | Except.ok rawSql =>
        match transformSqlForOptions rawSql step.table options with
        | Except.error e => (tr ++ [Ev.fetch k], some e)
        | Except.ok sql =>
          match runSqlSafely env k (tr ++ [Ev.fetch k]) sql with
          | (tr2, none) => applyStepsLoop env options rest (k + 1) tr2
          | (tr2, some e) =>
            match sendLog env (errorLogLine step.table e) with
            | Except.error e2 => (tr2, some e2)
            | Except.ok _ =>
              (tr2, some (enrichSqlError e
                { table := some step.table, stmtIndex := e.metaStmtIndex,
                  preview := e.metaPreview }))

/-- The `finally` block: re-enable foreign-key checks; both a query failure
and a sink throw on the confirmation message are swallowed by its own
`catch {}`, so neither the trace's tail nor the outcome depends on them. -/
def applyFinally (env : ApplyEnv) (tr : List Ev) (res : Except JsError Unit) :
    List Ev × Except JsError Unit :=
  ((runQuery env tr none none fkOnStmt).1, res)

/-- Embeds `applyPlan(world_db, plan, onLog)`.  The two setup statements
precede the `try` block, so a failure there propagates without rollback and
without reaching the `finally` block; inside the `try`, any escaping error
triggers a best-effort `ROLLBACK;` whose own failure is discarded by an
empty `catch {}` (nothing is re-thrown and nothing is logged there), the
error is re-thrown unchanged, and the `finally` block appends the FK
re-enable attempt. -/
def applyPlan (env : ApplyEnv) (plan : UpdatePlan) : List Ev × Except JsError Unit :=
  match sendLog env applyPlanFirstMsg with
  | Except.error e => ([], Except.error e)
  | Except.ok _ =>
    match runQuery env [] none none fkOffStmt with
    | (tr, some e) => (tr, Except.error e)
    | (tr, none) =>
      match runQuery env tr none none startTxStmt with
      | (tr1, some e) => (tr1, Except.error e)
      | (tr1, none) =>
        match applyStepsLoop env plan.options plan.steps 0 tr1 with
        | (tr2, none) => applyFinally env tr2 (Except.ok ())
        | (tr2, some e) =>
          let tr3 := (runQuery env tr2 none none rollbackStmt).1
          applyFinally env tr3 (Except.error e)

/-! ### A small transactional-database semantics for the trace

Used to state atomicity: a successful `START TRANSACTION;` opens a
transaction, successful step statements accumulate as pending row data,
a successful `COMMIT;` publishes the pending data, a successful `ROLLBACK;`
discards it.  The executor's session settings (the FK toggles) are not row
data.  SQL-level aliases of transaction control (for example a `commit`
hidden inside a dump) are outside this lexical model; atomicity theorems
therefore assume step statements are not the executor's control strings. -/

/-- The executor's transaction-control statement texts. -/
def ctrlStrings : List String := [startTxStmt, commitStmt, rollbackStmt]

/-- Transactional database state: published row data, pending row data, and
whether a transaction is open. -/
structure TxState where
  committed : List String
  pending : List String
  inTx : Bool
deriving Repr, DecidableEq

/-- Apply one trace event to the transactional state. -/
def txApply (st : TxState) (ev : Ev) : TxState :=
  match ev with
  | Ev.fetch _ => st
  | Ev.exec stepIdx _ sql ok =>
    if ok = false then st
    else if sql = startTxStmt then { st with pending := [], inTx := true }
    else if sql = commitStmt then
      { committed := st.committed ++ st.pending, pending := [], inTx := false }
    else if sql = rollbackStmt then { st with pending := [], inTx := false }
    else
      match stepIdx with
      | some _ =>
        if st.inTx then { st with pending := st.pending ++ [sql] }
        else { st with committed := st.committed ++ [sql] }
      | none => st

/-- Run the transactional semantics over a whole trace. -/
def txData (trace : List Ev) : TxState :=
  trace.foldl txApply { committed := [], pending := [], inTx := false }

/-! ### Progress-capable catalog builder (`fetchWorldTableCatalogWithProgress`)

Network calls are abstracted into an oracle environment; the progress sink
receives either human-readable strings or small structured objects, modelled
by one inductive message type.  Its `send` wrapper is
`try { onProgress(m) } catch {}`: the sink's exception is discarded and
nothing else of the pipeline state can change, so a send is modelled as
recording the attempted message. -/

/-- One entry of the recursive git tree listing. -/
structure TreeNode where
  typ : String
  path : String
  sha : String
deriving Repr, DecidableEq

/-- The messages `fetchWorldTableCatalogWithProgress` emits (strings and
structured objects of the source, one constructor per shape). -/
inductive CatMsg where
  | resolving (ref : String)
  | resolved (commitSha treeSha : String)
  | foundZips (count : Nat) (commitSha : String)
  | downloading (name : String) (idx total : Nat)
  | foundSql (count : Nat) (zipName : String)
  | zipEmpty (zipName : String)
  | zipError (zipName : String) (err : String)
  | done (tables : Nat) (commitSha : String)
deriving Repr, DecidableEq

/-- Oracles for the catalog build: ref resolution, the recursive tree
listing, and per-zip download + SQL entry-name listing (keyed by zip path). -/
structure CatalogEnv where
  resolveRes : Except JsError (String × String)
  treeRes : Except JsError (List TreeNode)
  zipEntriesRes : String → Except JsError (List String)

/-- The catalog builder's `send`: attempt to deliver `m` to the sink; a
throwing sink (`sink m = true`) is caught and discarded, so the attempt is
recorded and nothing else happens. -/
def sendCat (_sink : CatMsg → Bool) (m : CatMsg) (log : List CatMsg) : List CatMsg :=
  log ++ [m]

/-- The fixed archive-root filter prefix (`GITHUB_PATH + '/'`). -/
def archiveRoot : String := "worldtables_with_data/"

/-- The per-zip loop of `fetchWorldTableCatalogWithProgress`: download and
list each zip's SQL entries; a per-zip failure emits a `zipError` message and
skips that zip; rows are built from entry names exactly as in the source. -/
def catalogZipLoop (env : CatalogEnv) (sink : CatMsg → Bool) :
    List (String × String) → Nat → Nat → List CatMsg → List CatalogRow →
    List CatMsg × List CatalogRow
  | [], _, _, log, acc => (log, acc)
  | (name, path) :: rest, i, total, log, acc =>
    let log1 := sendCat sink (CatMsg.downloading name (i + 1) total) log
    match env.zipEntriesRes path with
    | Except.error e =>
      let log2 := sendCat sink (CatMsg.zipError name (errMsg e)) log1
      catalogZipLoop env sink rest (i + 1) total log2 acc
    | Except.ok entries =>
      let log2 := sendCat sink (CatMsg.foundSql entries.length name) log1
      let rows := entries.map (fun entryName =>
        let table := detectTableNameFromPaths entryName name
        { table := table, group := assignGroup table,
          fileName := name ++ " :: " ++ entryName,
          entryName := entryName : CatalogRow })
      let log3 := if entries.length = 0 then sendCat sink (CatMsg.zipEmpty name) log2 else log2
      catalogZipLoop env sink rest (i + 1) total log3 (acc ++ rows)

/-- Embeds `fetchWorldTableCatalogWithProgress({ref, onProgress})`: resolve,
list the tree, filter blob entries under the archive root ending in `.zip`
(case-insensitive), walk the zips sequentially, sort the catalog by table
name, and emit a terminal `done` message.  Returns the attempted progress
messages and the outcome.  (`localeCompare` ordering is modelled by Lean's
lexicographic `String` order; the sort is stable, as `Array.sort` is.) -/
def fetchWorldTableCatalogWithProgress (env : CatalogEnv) (ref : String)
    (sink : CatMsg → Bool) : List CatMsg × Except JsError (List CatalogRow) :=
  let log0 := sendCat sink (CatMsg.resolving ref) []
  match env.resolveRes with
  | Except.error e => (log0, Except.error e)
  | Except.ok (commitSha, treeSha) =>
    let log1 := sendCat sink (CatMsg.resolved commitSha treeSha) log0
    match env.treeRes with
    | Except.error e => (log1, Except.error e)
    | Except.ok tree =>
      let zips := (tree.filter (fun n =>
          n.typ = "blob" && jsStartsWith n.path archiveRoot &&
            jsEndsWith (jsToLower n.path) ".zip")).map
        (fun n => (((jsSplitSlash n.path).getLast?).getD "", n.path))
      let log2 := sendCat sink (CatMsg.foundZips zips.length commitSha) log1
      match catalogZipLoop env sink zips 0 zips.length log2 [] with
      | (log3, catalog) =>
        let sorted := catalog.mergeSort (fun a b => decide (a.table ≤ b.table))
        let log4 := sendCat sink (CatMsg.done sorted.length commitSha) log3
        (log4, Except.ok sorted)

/-! ### Supporting lemmas and example data -/

/-- Steps produced by the dedup loop inherit any property of the source
rows' table names. -/
theorem dedupByTable_tables_prop (p : String → Prop) :
    ∀ (rows : List CatalogRow) (seen : List String),
      (∀ row ∈ rows, p row.table) → ∀ st ∈ dedupByTable rows seen, p st.table := by
  intro rows
  induction rows with
  | nil => intro seen _ st hst; simp [dedupByTable] at hst
  | cons row rest ih =>
    intro seen h st hst
    simp only [dedupByTable] at hst
    split at hst
    · exact ih seen (fun r hr => h r (List.mem_cons_of_mem _ hr)) st hst
    · rcases List.mem_cons.mp hst with heq | hmem
      · rw [heq]
        exact h row (List.mem_cons_self row rest)
      · exact ih (row.table :: seen) (fun r hr => h r (List.mem_cons_of_mem _ hr)) st hmem

/-- Example catalog row for the `characters` table (a dangerous table). -/
def exRowCharacters : CatalogRow :=
  { table := "characters", group := "Other / Misc",
    fileName := "characters.zip :: characters.sql", entryName := "characters.sql" }

/-- Example catalog row for the `npc_factions` table (not dangerous). -/
def exRowNpcFactions : CatalogRow :=
  { table := "npc_factions", group := "NPCs & Factions",
    fileName := "npc_factions.zip :: npc_factions.sql", entryName := "npc_factions.sql" }

/-- The two-row example catalog of the danger-filtering property. -/
def exCatalogC2 : List CatalogRow :=
  [exRowCharacters, exRowNpcFactions]

/-- Example catalog row whose group is capitalised `Quests`. -/
def exRowQuestsCap : CatalogRow :=
  { table := "quest_rewards", group := "Quests",
    fileName := "quest_rewards.zip :: quest_rewards.sql", entryName := "quest_rewards.sql" }

/-! ### Claim theorems -/

/-- Claim C2: `buildUpdatePlan` chooses exactly the catalog rows whose group
is an element of `selectedGroups` or whose table name matches an element of
`selectedTables` case-insensitively (a union); unless `includeChars` is true
it drops every chosen row whose table is in the Danger Set while reporting
the dropped names; and on a catalog containing `characters` and
`npc_factions`, both selected by name, the plan keeps only `npc_factions`
unless dangerous tables are explicitly included, in which case both appear. -/
theorem c2_selection_union_and_danger_filter :
    (∀ catalog ts gs (row : CatalogRow),
        row ∈ chosenRows catalog ts gs ↔
          row ∈ catalog ∧ (row.group ∈ gs ∨ jsToLower row.table ∈ ts.map jsToLower)) ∧
    (∀ catalog ts gs m tr st,
        st ∈ (buildUpdatePlan catalog ts gs false m tr).steps → isDangerous st.table = false) ∧
    (∀ catalog ts gs,
        reportedExcluded catalog ts gs false =
          ((chosenRows catalog ts gs).filter (fun r => isDangerous r.table)).map
            (fun r => r.table)) ∧
    (∀ catalog ts gs m tr,
        (buildUpdatePlan catalog ts gs true m tr).steps =
          dedupByTable (chosenRows catalog ts gs) []) ∧
    ((buildUpdatePlan exCatalogC2 ["characters", "npc_factions"] [] false "apply" false).steps.map
        (fun s => s.table) = ["npc_factions"]) ∧
    ((buildUpdatePlan exCatalogC2 ["characters", "npc_factions"] [] true "apply" false).steps.map
        (fun s => s.table) = ["characters", "npc_factions"]) := by
  refine ⟨?_, ?_, ?_, ?_, by decide, by decide⟩
  · intro catalog ts gs row
    simp [chosenRows, List.mem_filter]
  · intro catalog ts gs m tr st hst
    have hst' : st ∈ dedupByTable
        ((chosenRows catalog ts gs).filter (fun r => !isDangerous r.table)) [] := by
      simpa [buildUpdatePlan] using hst
    refine dedupByTable_tables_prop (fun t => isDangerous t = false)
      ((chosenRows catalog ts gs).filter (fun r => !isDangerous r.table)) [] ?_ st hst'
    intro r hr
    have := (List.mem_filter.mp hr).2
    simpa using this
  · intro catalog ts gs
    simp [reportedExcluded, excludedDangerous]
  · intro catalog ts gs m tr
    simp [buildUpdatePlan]

/-- The plan step produced for the `npc_factions` example row. -/
def exStepNpcFactions : PlanStep :=
  { table := "npc_factions", group := "NPCs & Factions",
    fileName := "npc_factions.zip :: npc_factions.sql", entryName := "npc_factions.sql" }

/-- Witness for C2: instantiates the danger-filter part at the concrete
two-row catalog — the surviving `npc_factions` step is not dangerous. -/
theorem c2_witness :
    isDangerous exStepNpcFactions.table = false :=
  c2_selection_union_and_danger_filter.2.1 exCatalogC2 ["characters", "npc_factions"] []
    "apply" false exStepNpcFactions (by decide)

/-- Claim C10: group membership in the selection filter is exact,
case-sensitive string equality, while table names are matched
case-insensitively; selecting group `quests` chooses no row whose group is
`Quests`, while a table selected as `QUEST_REWARDS` is chosen. -/
theorem c10_group_match_case_sensitive :
    (∀ catalog ts gs (row : CatalogRow),
        row ∈ chosenRows catalog ts gs ↔
          row ∈ catalog ∧
            ((∃ g ∈ gs, g = row.group) ∨ (∃ t ∈ ts, jsToLower t = jsToLower row.table))) ∧
    (chosenRows [exRowQuestsCap] [] ["quests"] = []) ∧
    (chosenRows [exRowQuestsCap] ["QUEST_REWARDS"] [] = [exRowQuestsCap]) := by
  refine ⟨?_, by decide, by decide⟩
  intro catalog ts gs row
  simp [chosenRows, List.mem_filter]

/-- Witness for C10: the case-insensitive table-name selection applied at
the concrete catalog. -/
theorem c10_witness :
    exRowQuestsCap ∈ chosenRows [exRowQuestsCap] ["QUEST_REWARDS"] [] :=
  (c10_group_match_case_sensitive.1 [exRowQuestsCap] ["QUEST_REWARDS"] [] exRowQuestsCap).mpr
    ⟨by decide, Or.inr ⟨"QUEST_REWARDS", by decide, by decide⟩⟩

/-- Modelled from the spec's words (§4.3, `deriveTableName`), for comparison
with the source's `detectTableNameFromPaths`: basename ending in the SQL
extension → strip it; otherwise the archive name with its extension
stripped; otherwise the `unknown_table` sentinel (no further fallback). -/
def specDeriveTableName (entryName zipName : String) : String :=
  if jsEndsWith (jsToLower (entryBase entryName)) ".sql" then (entryBase entryName).dropRight 4
  else if zipStripped zipName ≠ "" then zipStripped zipName
  else "unknown_table"

/-- Counterexample for C7: with a non-SQL entry name and an empty archive
name, the code returns the entry's basename (`readme.txt`), not the
`unknown_table` sentinel the claimed case chain requires. -/
theorem c7_counterexample :
    detectTableNameFromPaths "readme.txt" "" = "readme.txt" ∧
    specDeriveTableName "readme.txt" "" = "unknown_table" ∧
    detectTableNameFromPaths "readme.txt" "" ≠ specDeriveTableName "readme.txt" "" := by
  refine ⟨by decide, by decide, by decide⟩

/-- Claim C7 (amended): `deriveTableName` strips the SQL extension from the
entry's basename when present; otherwise returns the archive name with a
trailing `.zip` stripped case-insensitively, when that is non-empty;
otherwise falls back to the entry's basename, when non-empty; and only when
both fallbacks are empty returns the `unknown_table` sentinel. -/
theorem c7_derive_table_name_cases (entryName zipName : String) :
    (jsEndsWith (jsToLower (entryBase entryName)) ".sql" = true →
      detectTableNameFromPaths entryName zipName = (entryBase entryName).dropRight 4) ∧
    (jsEndsWith (jsToLower (entryBase entryName)) ".sql" = false → zipStripped zipName ≠ "" →
      detectTableNameFromPaths entryName zipName = zipStripped zipName) ∧
    (jsEndsWith (jsToLower (entryBase entryName)) ".sql" = false → zipStripped zipName = "" →
      entryBase entryName ≠ "" →
      detectTableNameFromPaths entryName zipName = entryBase entryName) ∧
    (jsEndsWith (jsToLower (entryBase entryName)) ".sql" = false → zipStripped zipName = "" →
      entryBase entryName = "" →
      detectTableNameFromPaths entryName zipName = "unknown_table") := by
  refine ⟨?_, ?_, ?_, ?_⟩ <;> intro h1
  · simp only [detectTableNameFromPaths]
    rw [if_pos h1]
  · intro h2
    simp only [detectTableNameFromPaths]
    rw [if_neg (by simp [h1]), if_pos h2]
  · intro h2 h3
    simp only [detectTableNameFromPaths]
    rw [if_neg (by simp [h1]), if_neg (by simp [h2]), if_pos h3]
  · intro h2 h3
    simp only [detectTableNameFromPaths]
    rw [if_neg (by simp [h1]), if_neg (by simp [h2]), if_neg (by simp [h3])]

/-- Witness for C7: the amended case chain evaluated at concrete inputs —
a non-SQL entry with a real archive name yields the stripped archive name. -/
theorem c7_witness :
    jsEndsWith (jsToLower (entryBase "readme.txt")) ".sql" = false ∧
    zipStripped "foo.zip" ≠ "" ∧
    detectTableNameFromPaths "readme.txt" "foo.zip" = "foo" :=
  ⟨by decide, by decide,
    (c7_derive_table_name_cases "readme.txt" "foo.zip").2.1 (by decide) (by decide)⟩

/-- Modelled from the claim's words for comparison with the source's
word-boundary regex: replace every case-insensitive occurrence of the
literal `INSERT INTO` (leftmost, non-overlapping), with no boundary or
whitespace generalisation.  Fuel as in `replaceScan`. -/
def specReplaceScan : Nat → List Char → List Char
  | 0, s => s
  | _ + 1, [] => []
  | fuel + 1, c :: cs =>
    match matchCI ("insert into".data) (c :: cs) with
    | some r => ("REPLACE INTO".data) ++ specReplaceScan fuel r
    | none => c :: specReplaceScan fuel cs

/-- Naive case-insensitive replace-all of `INSERT INTO`, per the claim. -/
def specReplaceAllInsertInto (s : String) : String :=
  String.mk (specReplaceScan s.data.length s.data)

/-- Counterexample for C6: `REINSERT INTO t` contains a case-insensitive
occurrence of `INSERT INTO`, but the code's word-boundary regex leaves it
unchanged, unlike the claimed replace-every-occurrence rewrite. -/
theorem c6_replace_counterexample :
    transformSqlForOptions "REINSERT INTO t" "t"
        { includeChars := false, mode := "replace", truncate := false } =
      Except.ok "REINSERT INTO t" ∧
    specReplaceAllInsertInto "REINSERT INTO t" = "REREPLACE INTO t" ∧
    ("REINSERT INTO t" : String) ≠ "REREPLACE INTO t" := by
  exact ⟨rfl, by decide, by decide⟩

/-- Claim C6 (amended): `transformSqlForOptions` prepends a `TRUNCATE`
statement when `truncate` is set; mode `apply` otherwise leaves the text
unchanged; any mode other than `apply`/`replace` throws
`Unsupported mode: …`; and mode `replace` rewrites exactly the
word-bounded, case-insensitive occurrences of `INSERT` + whitespace +
`INTO` to `REPLACE INTO` (so `insert  into` is rewritten, while the
embedded occurrence in `REINSERT INTO` is not). -/
theorem c6_transform_cases (sql table : String) (opts : PlanOptions) :
    (opts.mode ≠ "apply" → opts.mode ≠ "replace" →
      transformSqlForOptions sql table opts =
        Except.error { message := "Unsupported mode: " ++ opts.mode }) ∧
    (opts.mode = "apply" →
      transformSqlForOptions sql table opts =
        Except.ok (if opts.truncate then "TRUNCATE TABLE `" ++ table ++ "`;\n" ++ sql else sql)) ∧
    (opts.mode = "replace" →
      transformSqlForOptions sql table opts =
        Except.ok (replaceInsertInto
          (if opts.truncate then "TRUNCATE TABLE `" ++ table ++ "`;\n" ++ sql else sql))) ∧
    (replaceInsertInto "insert  into t select 1" = "REPLACE INTO t select 1") ∧
    (replaceInsertInto "REINSERT INTO t" = "REINSERT INTO t") := by
  refine ⟨?_, ?_, ?_, by decide, by decide⟩
  · intro h1 h2
    simp [transformSqlForOptions, h1, h2]
  · intro h1
    simp [transformSqlForOptions, h1]
  · intro h1
    simp [transformSqlForOptions, h1]

/-- The text accumulated in a lexer state: emitted statements plus the
current fragment, flattened. -/
def outCur (st : SplitState) : List Char :=
  st.out.flatten ++ st.cur

set_option maxHeartbeats 1000000 in
/-- One lexer step appends to the accumulated text exactly the characters it
consumed (the second consumed character exists only when the lookahead
does). -/
theorem splitStep_join (st : SplitState) (c : Char) (next : Option Char) :
    outCur (splitStep st c next).1 =
      outCur st ++ c :: (if (splitStep st c next).2 = 2 then next.toList else []) := by
  obtain ⟨o, cur, iS, iD, iL, iB⟩ := st
  cases iL <;> cases iB <;> cases iS <;> cases iD <;>
    (simp [splitStep, outCur]
     split_ifs <;> simp_all [List.flatten_append, List.append_assoc])

set_option maxHeartbeats 1000000 in
/-- One lexer step advances by one or two characters. -/
theorem splitStep_adv (st : SplitState) (c : Char) (next : Option Char) :
    (splitStep st c next).2 = 1 ∨ (splitStep st c next).2 = 2 := by
  obtain ⟨o, cur, iS, iD, iL, iB⟩ := st
  cases iL <;> cases iB <;> cases iS <;> cases iD <;>
    (simp [splitStep]
     split_ifs <;> simp)

/-- The lexer loop appends to the accumulated text exactly the input it
consumed: the splitter loses nothing before its final-fragment check. -/
theorem splitLoop_join : ∀ (cs : List Char) (st : SplitState),
    outCur (splitLoop cs st) = outCur st ++ cs := by
  have H : ∀ (n : Nat) (cs : List Char) (st : SplitState), cs.length ≤ n →
      outCur (splitLoop cs st) = outCur st ++ cs := by
    intro n
    induction n with
    | zero =>
      intro cs st h
      cases cs with
      | nil => simp [splitLoop]
      | cons c rest => simp at h
    | succ n ih =>
      intro cs st h
      match cs with
      | [] => simp [splitLoop]
      | [c] =>
        have hj := splitStep_join st c none
        rcases splitStep_adv st c none with h1 | h2
        · simp only [splitLoop]
          rw [hj, h1]
          simp
        · simp only [splitLoop]
          rw [hj, h2]
          simp
      | c1 :: c2 :: rest =>
        have hj := splitStep_join st c1 (some c2)
        simp only [splitLoop]
        by_cases h2 : (splitStep st c1 (some c2)).2 = 2
        · rw [if_pos h2]
          rw [ih rest _ (by simp only [List.length_cons] at h ⊢; omega)]
          rw [hj, if_pos h2]
          simp
        · rw [if_neg h2]
          rw [ih (c2 :: rest) _ (by simp only [List.length_cons] at h ⊢; omega)]
          rw [hj, if_neg h2]
          simp
  intro cs st
  exact H cs.length cs st (le_refl _)

/-- `String.join` over `String.mk` is `String.mk` of the flattened list. -/
theorem join_map_mk (l : List (List Char)) :
    String.join (l.map String.mk) = String.mk l.flatten := by
  have H : ∀ (l : List (List Char)) (s : List Char),
      (l.map String.mk).foldl (· ++ ·) (String.mk s) = String.mk (s ++ l.flatten) := by
    intro l
    induction l with
    | nil => intro s; simp
    | cons a as ih =>
      intro s
      have : String.mk s ++ String.mk a = String.mk (s ++ a) := rfl
      simp only [List.map_cons, List.foldl_cons, this, ih, List.flatten_cons,
        List.append_assoc]
  have h0 : ("" : String) = String.mk [] := rfl
  simpa [String.join, h0] using H l []

/-- The trim of a character list is empty exactly when every character is
whitespace. -/
theorem jsTrimList_eq_nil_iff (l : List Char) :
    jsTrimList l = [] ↔ ∀ c ∈ l, jsIsSpace c = true := by
  unfold jsTrimList
  rw [List.reverse_eq_nil_iff, List.dropWhile_eq_nil_iff]
  constructor
  · intro h c hc
    rcases List.mem_append.mp
        ((List.takeWhile_append_dropWhile (p := jsIsSpace) (l := l)) ▸ hc) with h1 | h1
    · exact List.mem_takeWhile_imp h1
    · exact h c (by simpa using h1)
  · intro h c hc
    have : c ∈ l.dropWhile jsIsSpace := by simpa using hc
    exact h c (List.Sublist.mem this (List.dropWhile_sublist _))

set_option maxHeartbeats 1000000 in
/-- Every statement list the lexer loop emits beyond those already present
ends with the terminator `;`. -/
theorem splitLoop_out : ∀ (cs : List Char) (st : SplitState) (s : List Char),
    s ∈ (splitLoop cs st).out → s ∈ st.out ∨ s.getLast? = some ';' := by
  have step : ∀ (st : SplitState) (c : Char) (next : Option Char) (s : List Char),
      s ∈ (splitStep st c next).1.out → s ∈ st.out ∨ s.getLast? = some ';' := by
    intro st c next s hs
    have : (splitStep st c next).1.out = st.out ∨
        (splitStep st c next).1.out = st.out ++ [st.cur ++ [';']] := by
      obtain ⟨o, cur, iS, iD, iL, iB⟩ := st
      cases iL <;> cases iB <;> cases iS <;> cases iD <;>
        (simp [splitStep]
         split_ifs <;> simp)
    rcases this with h | h
    · rw [h] at hs; exact Or.inl hs
    · rw [h] at hs
      rcases List.mem_append.mp hs with h1 | h1
      · exact Or.inl h1
      · right
        have : s = st.cur ++ [';'] := by simpa using h1
        rw [this]
        exact List.getLast?_concat _
  have H : ∀ (n : Nat) (cs : List Char) (st : SplitState) (s : List Char), cs.length ≤ n →
      s ∈ (splitLoop cs st).out → s ∈ st.out ∨ s.getLast? = some ';' := by
    intro n
    induction n with
    | zero =>
      intro cs st s h hs
      cases cs with
      | nil => simp only [splitLoop] at hs; exact Or.inl hs
      | cons c rest => simp at h
    | succ n ih =>
      intro cs st s h hs
      match cs with
      | [] => simp only [splitLoop] at hs; exact Or.inl hs
      | [c] =>
        simp only [splitLoop] at hs
        exact step st c none s hs
      | c1 :: c2 :: rest =>
        simp only [splitLoop] at hs
        by_cases h2 : (splitStep st c1 (some c2)).2 = 2
        · rw [if_pos h2] at hs
          rcases ih rest _ s (by simp only [List.length_cons] at h ⊢; omega) hs with h1 | h1
          · exact step st c1 (some c2) s h1
          · exact Or.inr h1
        · rw [if_neg h2] at hs
          rcases ih (c2 :: rest) _ s (by simp only [List.length_cons] at h ⊢; omega) hs with h1 | h1
          · exact step st c1 (some c2) s h1
          · exact Or.inr h1
  intro cs st s hs
  exact H cs.length cs st s (le_refl _) hs

/-- Counterexample for C3: re-joining the statements of `"a; "` yields
`"a;"` — the trailing whitespace-only fragment is dropped, so the splitter
is not exactly lossless on every input with balanced quotes and comments. -/
theorem c3_counterexample :
    String.join (splitSqlStatements "a; ") ≠ "a; " := by
  decide

/-- Claim C3 (amended): concatenating the emitted statements in order
reproduces the original text up to a dropped trailing whitespace-only
fragment: the residue `w` is always whitespace-only, and whenever the text
after the last emitted terminator is empty or contains non-whitespace, the
concatenation reproduces the input exactly. -/
theorem c3_split_join_lossless (sql : String) :
    (∃ w : String, String.join (splitSqlStatements sql) ++ w = sql ∧ jsTrim w = "") ∧
    ((jsTrimList (splitLoop sql.data initSplitState).cur ≠ [] ∨
        (splitLoop sql.data initSplitState).cur = []) →
      String.join (splitSqlStatements sql) = sql) := by
  have hinv : (splitLoop sql.data initSplitState).out.flatten ++
      (splitLoop sql.data initSplitState).cur = sql.data := by
    have := splitLoop_join sql.data initSplitState
    simpa [outCur, initSplitState] using this
  have hmk : String.mk sql.data = sql := rfl
  by_cases hc : jsTrimList (splitLoop sql.data initSplitState).cur ≠ []
  · have hres : String.join (splitSqlStatements sql) = sql := by
      unfold splitSqlStatements
      rw [if_pos hc, join_map_mk]
      rw [List.flatten_append]
      simp only [List.flatten_cons, List.flatten_nil, List.append_nil]
      rw [hinv]
    refine ⟨⟨"", by simpa using hres, by decide⟩, fun _ => hres⟩
  · push_neg at hc
    have hres : String.join (splitSqlStatements sql) =
        String.mk (splitLoop sql.data initSplitState).out.flatten := by
      unfold splitSqlStatements
      rw [if_neg (by simpa using hc), join_map_mk]
    constructor
    · refine ⟨String.mk (splitLoop sql.data initSplitState).cur, ?_, ?_⟩
      · rw [hres]
        have : String.mk (splitLoop sql.data initSplitState).out.flatten ++
            String.mk (splitLoop sql.data initSplitState).cur =
            String.mk ((splitLoop sql.data initSplitState).out.flatten ++
              (splitLoop sql.data initSplitState).cur) := rfl
        rw [this, hinv, hmk]
      · show String.mk (jsTrimList (String.mk (splitLoop sql.data initSplitState).cur).data) = ""
        have : (String.mk (splitLoop sql.data initSplitState).cur).data =
            (splitLoop sql.data initSplitState).cur := rfl
        rw [this, hc]
    · intro hor
      rcases hor with h1 | h1
      · exact absurd hc h1
      · rw [hres]
        rw [h1] at hinv
        simp only [List.append_nil] at hinv
        rw [hinv, hmk]

/-- Witness for C3: the amended lossless property applied at a concrete
input whose residue is empty. -/
theorem c3_witness :
    String.join (splitSqlStatements "SELECT 1;") = "SELECT 1;" :=
  (c3_split_join_lossless "SELECT 1;").2 (by decide)

set_option maxHeartbeats 1000000 in
/-- Claim C4: a semicolon terminates a statement only in the `Normal` lexer
state — in any quote or comment state a step never emits — and an emission
appends exactly the current fragment with the terminating semicolon
included; consequently every emitted statement except possibly the final
fragment ends in `;`, a statement containing the string literal `'a;b'`
splits into exactly one statement, a semicolon inside a line comment does
not split before the following newline, and a semicolon inside a block
comment does not split before `*/`. -/
theorem c4_semicolon_only_in_normal_state :
    (∀ (st : SplitState) (c : Char) (next : Option Char),
        (st.inS || st.inD || st.inLine || st.inBlock) = true →
        (splitStep st c next).1.out = st.out) ∧
    (∀ (st : SplitState) (c : Char) (next : Option Char),
        (splitStep st c next).1.out ≠ st.out →
        (st.inS || st.inD || st.inLine || st.inBlock) = false ∧ c = ';' ∧
          (splitStep st c next).1.out = st.out ++ [st.cur ++ [';']]) ∧
    (∀ (sql : String) (s : String), s ∈ (splitSqlStatements sql).dropLast →
        s.data.getLast? = some ';') ∧
    (splitSqlStatements "INSERT INTO t VALUES ('a;b')" =
      ["INSERT INTO t VALUES ('a;b')"]) ∧
    (splitSqlStatements "SELECT 1 -- c;d\n;" = ["SELECT 1 -- c;d\n;"]) ∧
    (splitSqlStatements "SELECT /* ;x */ 1;" = ["SELECT /* ;x */ 1;"]) := by
  refine ⟨?_, ?_, ?_, by decide, by decide, by decide⟩
  · intro st c next h
    obtain ⟨o, cur, iS, iD, iL, iB⟩ := st
    cases iL <;> cases iB <;> cases iS <;> cases iD <;> simp_all [splitStep] <;>
      (split_ifs <;> simp)
  · intro st c next hne
    obtain ⟨o, cur, iS, iD, iL, iB⟩ := st
    cases iL <;> cases iB <;> cases iS <;> cases iD <;>
      (simp [splitStep] at hne ⊢
       split_ifs at hne ⊢ <;> simp_all)
  · intro sql s hs
    unfold splitSqlStatements at hs
    by_cases hc : jsTrimList (splitLoop sql.data initSplitState).cur ≠ []
    · rw [if_pos hc] at hs
      rw [← List.map_dropLast, List.dropLast_concat] at hs
      rcases List.mem_map.mp hs with ⟨l, hl, hls⟩
      rcases splitLoop_out sql.data initSplitState l hl with h1 | h1
      · simp [initSplitState] at h1
      · rw [← hls]
        exact h1
    · rw [if_neg hc] at hs
      rw [← List.map_dropLast] at hs
      rcases List.mem_map.mp hs with ⟨l, hl, hls⟩
      have hl' : l ∈ (splitLoop sql.data initSplitState).out :=
        List.Sublist.mem hl (List.dropLast_sublist _)
      rcases splitLoop_out sql.data initSplitState l hl' with h1 | h1
      · simp [initSplitState] at h1
      · rw [← hls]
        exact h1

/-- Witness for C4: the no-emission guarantee applied in a concrete
in-string state meeting a semicolon. -/
theorem c4_witness :
    (splitStep ⟨[], ['x'], true, false, false, false⟩ ';' none).1.out = [] :=
  c4_semicolon_only_in_normal_state.1 ⟨[], ['x'], true, false, false, false⟩ ';' none
    (by decide)

/-- Claim C8: the splitter never emits an empty or whitespace-only
statement, and a trailing fragment containing non-whitespace after the last
terminator is emitted as a final statement even without a terminator. -/
theorem c8_no_blank_statements_and_trailing_emitted :
    (∀ (sql : String) (s : String), s ∈ splitSqlStatements sql → jsTrim s ≠ "") ∧
    (∀ sql : String,
        (∃ c ∈ (splitLoop sql.data initSplitState).cur, ¬ jsIsSpace c = true) →
        splitSqlStatements sql =
          ((splitLoop sql.data initSplitState).out ++
            [(splitLoop sql.data initSplitState).cur]).map String.mk) := by
  constructor
  · intro sql s hs
    unfold splitSqlStatements at hs
    have main : ∀ l : List Char, l ∈ (splitLoop sql.data initSplitState).out ∨
        jsTrimList l ≠ [] → jsTrim (String.mk l) ≠ "" := by
      intro l hl
      have hne : jsTrimList l ≠ [] := by
        rcases hl with h1 | h1
        · rcases splitLoop_out sql.data initSplitState l h1 with h2 | h2
          · simp [initSplitState] at h2
          · intro hnil
            have hall := (jsTrimList_eq_nil_iff l).mp hnil
            have hsemi : ';' ∈ l := by
              rcases l.eq_nil_or_concat with rfl | ⟨l2, a, rfl⟩
              · simp at h2
              · simp only [List.concat_eq_append] at h2 hall ⊢
                rw [List.getLast?_concat] at h2
                simp only [Option.some.injEq] at h2
                rw [h2]
                exact List.mem_append.mpr (Or.inr (List.mem_singleton.mpr rfl))
            have := hall ';' hsemi
            simp [jsIsSpace] at this
        · exact h1
      intro heq
      apply hne
      have : (String.mk (jsTrimList l)) = ("" : String) := heq
      have h2 : jsTrimList l = ("" : String).data := congrArg String.data this
      simpa using h2
    by_cases hc : jsTrimList (splitLoop sql.data initSplitState).cur ≠ []
    · rw [if_pos hc] at hs
      rcases List.mem_map.mp hs with ⟨l, hl, hls⟩
      rcases List.mem_append.mp hl with h1 | h1
      · rw [← hls]; exact main l (Or.inl h1)
      · rw [← hls]
        exact main l (Or.inr (by simpa using (List.mem_singleton.mp h1) ▸ hc))
    · rw [if_neg hc] at hs
      rcases List.mem_map.mp hs with ⟨l, hl, hls⟩
      rw [← hls]
      exact main l (Or.inl hl)
  · intro sql hex
    unfold splitSqlStatements
    rw [if_pos ?_]
    intro hnil
    rcases hex with ⟨c, hc, hcs⟩
    exact hcs ((jsTrimList_eq_nil_iff _).mp hnil c hc)

/-- Witness for C8: both parts at concrete inputs — `"SELECT 1;"` is never
blank, and the unterminated tail `" GO"` of `"SELECT 1; GO"` is emitted. -/
theorem c8_witness :
    jsTrim "SELECT 1;" ≠ "" ∧
    splitSqlStatements "SELECT 1; GO" =
      ((splitLoop "SELECT 1; GO".data initSplitState).out ++
        [(splitLoop "SELECT 1; GO".data initSplitState).cur]).map String.mk :=
  ⟨c8_no_blank_statements_and_trailing_emitted.1 "SELECT 1;" "SELECT 1;" (by decide),
   c8_no_blank_statements_and_trailing_emitted.2 "SELECT 1; GO"
     ⟨'G', by decide, by decide⟩⟩

/-- Witness for C6: the amended characterisation evaluated at a concrete
unsupported mode and at a concrete truncate + apply call. -/
theorem c6_witness :
    transformSqlForOptions "SELECT 1;" "t"
        { includeChars := false, mode := "merge", truncate := false } =
      Except.error { message := "Unsupported mode: merge" } ∧
    transformSqlForOptions "SELECT 1;" "t"
        { includeChars := false, mode := "apply", truncate := true } =
      Except.ok "TRUNCATE TABLE `t`;\nSELECT 1;" :=
  ⟨(c6_transform_cases "SELECT 1;" "t" _).1 (by decide) (by decide),
   by
    have := (c6_transform_cases "SELECT 1;" "t"
      { includeChars := false, mode := "apply", truncate := true }).2.1 rfl
    simpa using this⟩

/-! ### Trace-order machinery for the executor claims -/

/-- Instrumentation tag of an event: the archive fetch of step `k` is keyed
`(k, 0)`, statement `i` of step `k` is keyed `(k, i + 1)`; the executor's
own control statements are untagged. -/
def evTag : Ev → Option (Nat × Nat)
  | Ev.fetch k => some (k, 0)
  | Ev.exec (some k) (some i) _ _ => some (k, i + 1)
  | _ => none

/-- Lexicographic order on step/position tags. -/
def tagLe (a b : Nat × Nat) : Prop :=
  a.1 < b.1 ∨ (a.1 = b.1 ∧ a.2 ≤ b.2)

/-- Event order: whenever both events are tagged, the tags are
lexicographically ordered (untagged events are unconstrained). -/
def evLe (a b : Ev) : Prop :=
  ∀ ta tb, evTag a = some ta → evTag b = some tb → tagLe ta tb

/-- Untagged events relate to everything on the left. -/
theorem evLe_of_untagged_left (a b : Ev) (h : evTag a = none) : evLe a b := by
  intro ta tb hta
  rw [h] at hta
  exact absurd hta (by simp)

/-- Untagged events relate to everything on the right. -/
theorem evLe_of_untagged_right (a b : Ev) (h : evTag b = none) : evLe a b := by
  intro ta tb _ htb
  rw [h] at htb
  exact absurd htb (by simp)

/-- The statement loop appends, in order, only events tagged `(k, j + 1)`
with `j` at least the running statement index, pairwise ordered. -/
theorem runStmtsFrom_shape (env : ApplyEnv) (k : Nat) :
    ∀ (stmts : List String) (tr : List Ev) (i : Nat), ∃ d,
      (runStmtsFrom env k tr i stmts).1 = tr ++ d ∧
      (∀ ev ∈ d, ∃ j, i ≤ j ∧ evTag ev = some (k, j + 1)) ∧
      d.Pairwise evLe := by
  intro stmts
  induction stmts with
  | nil =>
    intro tr i
    exact ⟨[], by simp [runStmtsFrom], by simp, by simp⟩
  | cons stmt rest ih =>
    intro tr i
    by_cases htrim : jsTrim stmt = ""
    · obtain ⟨d, hd1, hd2, hd3⟩ := ih tr (i + 1)
      refine ⟨d, ?_, ?_, hd3⟩
      · simp only [runStmtsFrom, if_pos htrim]
        exact hd1
      · intro ev hev
        obtain ⟨j, hj1, hj2⟩ := hd2 ev hev
        exact ⟨j, by omega, hj2⟩
    · cases hdb : env.dbRes tr (jsTrim stmt) with
      | none =>
        obtain ⟨d, hd1, hd2, hd3⟩ :=
          ih (tr ++ [Ev.exec (some k) (some i) (jsTrim stmt) true]) (i + 1)
        refine ⟨Ev.exec (some k) (some i) (jsTrim stmt) true :: d, ?_, ?_, ?_⟩
        · simp only [runStmtsFrom, if_neg htrim, runQuery, hdb]
          rw [hd1]
          simp
        · intro ev hev
          rcases List.mem_cons.mp hev with rfl | hev
          · exact ⟨i, le_refl _, rfl⟩
          · obtain ⟨j, hj1, hj2⟩ := hd2 ev hev
            exact ⟨j, by omega, hj2⟩
        · refine List.pairwise_cons.mpr ⟨?_, hd3⟩
          intro ev hev
          obtain ⟨j, hj1, hj2⟩ := hd2 ev hev
          intro ta tb hta htb
          simp only [evTag, Option.some.injEq] at hta
          rw [hj2] at htb
          simp only [Option.some.injEq] at htb
          rw [← hta, ← htb]
          exact Or.inr ⟨rfl, by omega⟩
      | some e =>
        refine ⟨[Ev.exec (some k) (some i) (jsTrim stmt) false], ?_, ?_, ?_⟩
        · simp only [runStmtsFrom, if_neg htrim, runQuery, hdb]
        · intro ev hev
          rcases List.mem_singleton.mp hev with rfl
          exact ⟨i, le_refl _, rfl⟩
        · simp

/-- The step loop appends only events tagged with step index at least `k`,
pairwise ordered: steps execute strictly sequentially, the fetch of a step
first, its statements after it in statement order. -/
theorem applyStepsLoop_shape (env : ApplyEnv) (opts : PlanOptions) :
    ∀ (steps : List PlanStep) (k : Nat) (tr : List Ev), ∃ d,
      (applyStepsLoop env opts steps k tr).1 = tr ++ d ∧
      (∀ ev ∈ d, ∀ t, evTag ev = some t → k ≤ t.1) ∧
      d.Pairwise evLe := by
  intro steps
  induction steps with
  | nil =>
    intro k tr
    cases hs : sendLog env "Committing…" with
    | error e => exact ⟨[], by simp [applyStepsLoop, hs], by simp, by simp⟩
    | ok u =>
      cases u
      cases hdb : env.dbRes tr commitStmt with
      | none =>
        refine ⟨[Ev.exec none none commitStmt true], ?_, ?_, by simp⟩
        · simp [applyStepsLoop, hs, runQuery, hdb]
        · intro ev hev t ht
          rcases List.mem_singleton.mp hev with rfl
          simp [evTag] at ht
      | some e =>
        refine ⟨[Ev.exec none none commitStmt false], ?_, ?_, by simp⟩
        · simp [applyStepsLoop, hs, runQuery, hdb]
        · intro ev hev t ht
          rcases List.mem_singleton.mp hev with rfl
          simp [evTag] at ht
  | cons step rest ih =>
    intro k tr
    cases hs : sendLog env ("Updating " ++ step.table ++ " (" ++ step.fileName ++ ")…") with
    | error e => exact ⟨[], by simp [applyStepsLoop, hs], by simp, by simp⟩
    | ok u =>
      cases u
      have hfetch : ∀ t, evTag (Ev.fetch k) = some t → k ≤ t.1 := by
        intro t ht
        simp only [evTag, Option.some.injEq] at ht
        rw [← ht]
      cases hload : env.loadStep k with
      | error e =>
        refine ⟨[Ev.fetch k], by simp [applyStepsLoop, hs, hload], ?_, by simp⟩
        intro ev hev
        rcases List.mem_singleton.mp hev with rfl
        exact hfetch
      | ok rawSql =>
        cases htrans : transformSqlForOptions rawSql step.table opts with
        | error e =>
          refine ⟨[Ev.fetch k], by simp [applyStepsLoop, hs, hload, htrans], ?_, by simp⟩
          intro ev hev
          rcases List.mem_singleton.mp hev with rfl
          exact hfetch
        | ok sql =>
          obtain ⟨d1, hd1, hd1t, hd1p⟩ :=
            runStmtsFrom_shape env k (splitSqlStatements sql) (tr ++ [Ev.fetch k]) 0
          have hd1t' : ∀ ev ∈ d1, ∃ j, evTag ev = some (k, j + 1) := by
            intro ev hev
            obtain ⟨j, _, hj⟩ := hd1t ev hev
            exact ⟨j, hj⟩
          rcases hrun : runSqlSafely env k (tr ++ [Ev.fetch k]) sql with ⟨tr2, oe⟩
          have htr2 : tr2 = (tr ++ [Ev.fetch k]) ++ d1 := by
            have : (runSqlSafely env k (tr ++ [Ev.fetch k]) sql).1 = (tr ++ [Ev.fetch k]) ++ d1 := by
              unfold runSqlSafely
              exact hd1
            rw [hrun] at this
            exact this
          cases oe with
          | none =>
            obtain ⟨d2, hd2, hd2t, hd2p⟩ := ih (k + 1) tr2
            refine ⟨Ev.fetch k :: (d1 ++ d2), ?_, ?_, ?_⟩
            · have : (applyStepsLoop env opts (step :: rest) k tr) =
                  applyStepsLoop env opts rest (k + 1) tr2 := by
                simp [applyStepsLoop, hs, hload, htrans, hrun]
              rw [this, hd2, htr2]
              simp
            · intro ev hev t ht
              rcases List.mem_cons.mp hev with rfl | hev
              · exact hfetch t ht
              · rcases List.mem_append.mp hev with h1 | h1
                · obtain ⟨j, hj⟩ := hd1t' ev h1
                  rw [hj] at ht
                  simp only [Option.some.injEq] at ht
                  rw [← ht]
                · have := hd2t ev h1 t ht
                  omega
            · refine List.pairwise_cons.mpr ⟨?_, ?_⟩
              · intro ev hev ta tb hta htb
                simp only [evTag, Option.some.injEq] at hta
                rcases List.mem_append.mp hev with h1 | h1
                · obtain ⟨j, hj⟩ := hd1t' ev h1
                  rw [hj] at htb
                  simp only [Option.some.injEq] at htb
                  rw [← hta, ← htb]
                  exact Or.inr ⟨rfl, by omega⟩
                · have := hd2t ev h1 tb htb
                  rw [← hta]
                  exact Or.inl (by omega)
              · refine (List.pairwise_append).mpr ⟨hd1p, hd2p, ?_⟩
                intro a ha b hb ta tb hta htb
                obtain ⟨j, hj⟩ := hd1t' a ha
                rw [hj] at hta
                simp only [Option.some.injEq] at hta
                have := hd2t b hb tb htb
                rw [← hta]
                exact Or.inl (by omega)
          | some e =>
            cases hs2 : sendLog env (errorLogLine step.table e) with
            | error e2 =>
              refine ⟨Ev.fetch k :: d1, ?_, ?_, ?_⟩
              · have : (applyStepsLoop env opts (step :: rest) k tr) = (tr2, some e2) := by
                  simp [applyStepsLoop, hs, hload, htrans, hrun, hs2]
                rw [this, htr2]
                simp
              · intro ev hev t ht
                rcases List.mem_cons.mp hev with rfl | hev
                · exact hfetch t ht
                · obtain ⟨j, hj⟩ := hd1t' ev hev
                  rw [hj] at ht
                  simp only [Option.some.injEq] at ht
                  rw [← ht]
              · refine List.pairwise_cons.mpr ⟨?_, hd1p⟩
                intro ev hev ta tb hta htb
                simp only [evTag, Option.some.injEq] at hta
                obtain ⟨j, hj⟩ := hd1t' ev hev
                rw [hj] at htb
                simp only [Option.some.injEq] at htb
                rw [← hta, ← htb]
                exact Or.inr ⟨rfl, by omega⟩
            | ok u2 =>
              cases u2
              refine ⟨Ev.fetch k :: d1, ?_, ?_, ?_⟩
              · have : (applyStepsLoop env opts (step :: rest) k tr) =
                    (tr2, some (enrichSqlError e
                      { table := some step.table, stmtIndex := e.metaStmtIndex,
                        preview := e.metaPreview })) := by
                  simp [applyStepsLoop, hs, hload, htrans, hrun, hs2]
                rw [this, htr2]
                simp
              · intro ev hev t ht
                rcases List.mem_cons.mp hev with rfl | hev
                · exact hfetch t ht
                · obtain ⟨j, hj⟩ := hd1t' ev hev
                  rw [hj] at ht
                  simp only [Option.some.injEq] at ht
                  rw [← ht]
              · refine List.pairwise_cons.mpr ⟨?_, hd1p⟩
                intro ev hev ta tb hta htb
                simp only [evTag, Option.some.injEq] at hta
                obtain ⟨j, hj⟩ := hd1t' ev hev
                rw [hj] at htb
                simp only [Option.some.injEq] at htb
                rw [← hta, ← htb]
                exact Or.inr ⟨rfl, by omega⟩

/-- A list of untagged events is pairwise ordered. -/
theorem pairwise_evLe_of_untagged :
    ∀ l : List Ev, (∀ ev ∈ l, evTag ev = none) → l.Pairwise evLe := by
  intro l
  induction l with
  | nil => intro _; simp
  | cons a rest ih =>
    intro h
    refine List.pairwise_cons.mpr ⟨?_, ih ?_⟩
    · intro b _
      exact evLe_of_untagged_left a b (h a (List.mem_cons_self a rest))
    · intro ev hev
      exact h ev (List.mem_cons_of_mem _ hev)

/-- Sandwiching an ordered segment between untagged events preserves order. -/
theorem pairwise_evLe_wrap (pre d post : List Ev)
    (hpre : ∀ ev ∈ pre, evTag ev = none) (hpost : ∀ ev ∈ post, evTag ev = none)
    (hd : d.Pairwise evLe) : (pre ++ d ++ post).Pairwise evLe := by
  refine List.pairwise_append.mpr ⟨?_, pairwise_evLe_of_untagged post hpost, ?_⟩
  · refine List.pairwise_append.mpr ⟨pairwise_evLe_of_untagged pre hpre, hd, ?_⟩
    intro a ha b _
    exact evLe_of_untagged_left a b (hpre a ha)
  · intro a _ b hb
    exact evLe_of_untagged_right a b (hpost b hb)

set_option maxHeartbeats 1000000 in
/-- Claim C5: `applyPlan` processes plan steps strictly sequentially in
array order — the whole event trace is ordered by the lexicographic
step/statement tag, so the archive fetch for step `k + 1` is never issued
before every executed statement of step `k`, and statements within one step
execute one at a time in order; in particular no statement of step `k` runs
after the fetch of step `k + 1` (one step's decoded SQL at a time). -/
theorem c5_steps_sequential_jit (env : ApplyEnv) (plan : UpdatePlan) :
    ((applyPlan env plan).1.Pairwise evLe) ∧
    (∀ i j k l s ok, i < j →
      (applyPlan env plan).1.get? i = some (Ev.fetch (k + 1)) →
      (applyPlan env plan).1.get? j = some (Ev.exec (some k) (some l) s ok) → False) := by
  have main : (applyPlan env plan).1.Pairwise evLe := by
    cases h0 : sendLog env applyPlanFirstMsg with
    | error e => simp [applyPlan, h0]
    | ok u =>
      cases u
      cases hdb0 : env.dbRes [] fkOffStmt with
      | some e =>
        have : (applyPlan env plan).1 = [Ev.exec none none fkOffStmt false] := by
          simp [applyPlan, h0, runQuery, hdb0]
        rw [this]
        exact pairwise_evLe_of_untagged _ (by intro ev hev; rcases List.mem_singleton.mp hev with rfl; rfl)
      | none =>
        cases hdb1 : env.dbRes [Ev.exec none none fkOffStmt true] startTxStmt with
        | some e =>
          have : (applyPlan env plan).1 =
              [Ev.exec none none fkOffStmt true, Ev.exec none none startTxStmt false] := by
            simp [applyPlan, h0, runQuery, hdb0, hdb1]
          rw [this]
          refine pairwise_evLe_of_untagged _ ?_
          intro ev hev
          rcases List.mem_cons.mp hev with rfl | hev
          · rfl
          · rcases List.mem_singleton.mp hev with rfl
            rfl
        | none =>
          obtain ⟨d, hd, _, hdp⟩ := applyStepsLoop_shape env plan.options plan.steps 0
            [Ev.exec none none fkOffStmt true, Ev.exec none none startTxStmt true]
          rcases hloop : applyStepsLoop env plan.options plan.steps 0
              [Ev.exec none none fkOffStmt true, Ev.exec none none startTxStmt true] with ⟨tr2, oe⟩
          have htr2 : tr2 =
              [Ev.exec none none fkOffStmt true, Ev.exec none none startTxStmt true] ++ d := by
            rw [hloop] at hd
            exact hd
          have hpre : ∀ ev ∈ [Ev.exec none none fkOffStmt true,
              Ev.exec none none startTxStmt true], evTag ev = none := by
            intro ev hev
            rcases List.mem_cons.mp hev with rfl | hev
            · rfl
            · rcases List.mem_singleton.mp hev with rfl
              rfl
          cases oe with
          | none =>
            have happ : (applyPlan env plan).1 =
                tr2 ++ [Ev.exec none none fkOnStmt ((env.dbRes tr2 fkOnStmt).isNone)] := by
              cases hdb2 : env.dbRes tr2 fkOnStmt with
              | none => simp [applyPlan, h0, runQuery, hdb0, hdb1, hloop, applyFinally, hdb2]
              | some e => simp [applyPlan, h0, runQuery, hdb0, hdb1, hloop, applyFinally, hdb2]
            rw [happ, htr2]
            refine pairwise_evLe_wrap _ _ _ hpre ?_ hdp
            intro ev hev
            rcases List.mem_singleton.mp hev with rfl
            rfl
          | some e =>
            have happ : (applyPlan env plan).1 =
                tr2 ++ [Ev.exec none none rollbackStmt ((env.dbRes tr2 rollbackStmt).isNone),
                  Ev.exec none none fkOnStmt ((env.dbRes (tr2 ++
                    [Ev.exec none none rollbackStmt ((env.dbRes tr2 rollbackStmt).isNone)])
                    fkOnStmt).isNone)] := by
              cases hdb2 : env.dbRes tr2 rollbackStmt with
              | none =>
                cases hdb3 : env.dbRes (tr2 ++ [Ev.exec none none rollbackStmt true]) fkOnStmt with
                | none =>
                  simp [applyPlan, h0, runQuery, hdb0, hdb1, hloop, applyFinally, hdb2, hdb3]
                | some e3 =>
                  simp [applyPlan, h0, runQuery, hdb0, hdb1, hloop, applyFinally, hdb2, hdb3]
              | some e2 =>
                cases hdb3 : env.dbRes (tr2 ++ [Ev.exec none none rollbackStmt false]) fkOnStmt with
                | none =>
                  simp [applyPlan, h0, runQuery, hdb0, hdb1, hloop, applyFinally, hdb2, hdb3]
                | some e3 =>
                  simp [applyPlan, h0, runQuery, hdb0, hdb1, hloop, applyFinally, hdb2, hdb3]
            rw [happ, htr2]
            refine pairwise_evLe_wrap _ _ _ hpre ?_ hdp
            intro ev hev
            rcases List.mem_cons.mp hev with rfl | hev
            · rfl
            · rcases List.mem_singleton.mp hev with rfl
              rfl
  refine ⟨main, ?_⟩
  intro i j k l s ok hij hi hj
  rw [List.get?_eq_some] at hi hj
  obtain ⟨hi1, hi2⟩ := hi
  obtain ⟨hj1, hj2⟩ := hj
  have hrel := List.pairwise_iff_get.mp main ⟨i, hi1⟩ ⟨j, hj1⟩ (Fin.mk_lt_mk.mpr hij)
  rw [hi2, hj2] at hrel
  have := hrel (k + 1, 0) (k, l + 1) rfl rfl
  rcases this with h | ⟨h, _⟩ <;> omega

/-- Oracle environment for the executor witnesses: every query succeeds and
each step's archive decodes to two statements. -/
def envC5 : ApplyEnv :=
  { dbRes := fun _ _ => none,
    loadStep := fun _ => Except.ok "SELECT 1; SELECT 2;",
    onLog := none,
    sinkError := fun m => { message := m } }

/-- A concrete two-step plan for the executor witnesses. -/
def planC5 : UpdatePlan :=
  { steps := [{ table := "a", group := "g", fileName := "a.zip :: a.sql", entryName := "a.sql" },
              { table := "b", group := "g", fileName := "b.zip :: b.sql", entryName := "b.sql" }],
    options := { includeChars := false, mode := "apply", truncate := false } }

/-- Witness for C5: the ordering theorem applied to a concrete two-step
plan, whose fully evaluated trace interleaves fetches and statements in
step order. -/
theorem c5_witness :
    ((applyPlan envC5 planC5).1.Pairwise evLe) ∧
    (applyPlan envC5 planC5).1 =
      [Ev.exec none none fkOffStmt true, Ev.exec none none startTxStmt true,
       Ev.fetch 0, Ev.exec (some 0) (some 0) "SELECT 1;" true,
       Ev.exec (some 0) (some 1) "SELECT 2;" true,
       Ev.fetch 1, Ev.exec (some 1) (some 0) "SELECT 1;" true,
       Ev.exec (some 1) (some 1) "SELECT 2;" true,
       Ev.exec none none commitStmt true, Ev.exec none none fkOnStmt true] :=
  ⟨(c5_steps_sequential_jit envC5 planC5).1, by decide⟩

/-! ### Atomicity machinery for C1 -/

/-- An event that, applied to an open transaction, can only grow the pending
data: it never publishes and never closes the transaction. -/
def TxInert (ev : Ev) : Prop :=
  ∀ c p, ∃ p2, txApply ⟨c, p, true⟩ ev = ⟨c, p2, true⟩

/-- Archive fetches are transactionally inert. -/
theorem txInert_fetch (k : Nat) : TxInert (Ev.fetch k) :=
  fun _ p => ⟨p, rfl⟩

/-- Rejected statements are transactionally inert. -/
theorem txInert_exec_false (a b : Option Nat) (s : String) :
    TxInert (Ev.exec a b s false) :=
  fun _ p => ⟨p, by simp [txApply]⟩

/-- A step statement that is not one of the executor's control statements is
transactionally inert inside an open transaction. -/
theorem txInert_tagged (k i : Nat) (s : String) (ok : Bool)
    (h : ¬ s ∈ ctrlStrings) : TxInert (Ev.exec (some k) (some i) s ok) := by
  intro c p
  have h1 : s ≠ startTxStmt := by
    intro heq; exact h (by rw [heq]; simp [ctrlStrings])
  have h2 : s ≠ commitStmt := by
    intro heq; exact h (by rw [heq]; simp [ctrlStrings])
  have h3 : s ≠ rollbackStmt := by
    intro heq; exact h (by rw [heq]; simp [ctrlStrings])
  cases ok with
  | false => exact ⟨p, by simp [txApply]⟩
  | true => exact ⟨p ++ [s], by simp [txApply, h1, h2, h3]⟩

/-- Folding inert events over an open transaction keeps the published data
and the open transaction unchanged. -/
theorem txFold_inert : ∀ (d : List Ev), (∀ ev ∈ d, TxInert ev) →
    ∀ c p, ∃ p2, d.foldl txApply ⟨c, p, true⟩ = ⟨c, p2, true⟩ := by
  intro d
  induction d with
  | nil => intro _ c p; exact ⟨p, rfl⟩
  | cons ev rest ih =>
    intro h c p
    obtain ⟨p1, hp1⟩ := h ev (List.mem_cons_self ev rest) c p
    obtain ⟨p2, hp2⟩ := ih (fun e he => h e (List.mem_cons_of_mem _ he)) c p1
    exact ⟨p2, by simp [List.foldl_cons, hp1, hp2]⟩

/-- The rollback attempt followed by the FK re-enable attempt never changes
the published data, whatever their outcomes. -/
theorem txData_tail_committed (st : TxState) (b1 b2 : Bool) :
    (List.foldl txApply st
      [Ev.exec none none rollbackStmt b1, Ev.exec none none fkOnStmt b2]).committed =
      st.committed := by
  obtain ⟨c, p, t⟩ := st
  cases b1 <;> cases b2 <;> cases t <;>
    simp [txApply, (by decide : ¬ (rollbackStmt = startTxStmt)),
      (by decide : ¬ (rollbackStmt = commitStmt)),
      (by decide : ¬ (fkOnStmt = startTxStmt)),
      (by decide : ¬ (fkOnStmt = commitStmt)),
      (by decide : ¬ (fkOnStmt = rollbackStmt))]

/-- On the error path, the step loop appends only archive fetches, tagged
step statements, and at most a failed `COMMIT;` attempt — never a successful
`COMMIT;`. -/
theorem applyStepsLoop_err (env : ApplyEnv) (opts : PlanOptions) :
    ∀ (steps : List PlanStep) (k : Nat) (tr tr2 : List Ev) (e : JsError),
      applyStepsLoop env opts steps k tr = (tr2, some e) →
      ∃ d, tr2 = tr ++ d ∧ ∀ ev ∈ d,
        (∃ k2, ev = Ev.fetch k2) ∨
        (∃ k2 i s ok, ev = Ev.exec (some k2) (some i) s ok) ∨
        ev = Ev.exec none none commitStmt false := by
  intro steps
  induction steps with
  | nil =>
    intro k tr tr2 e h
    cases hs : sendLog env "Committing…" with
    | error e2 =>
      simp only [applyStepsLoop, hs] at h
      obtain ⟨h1, _⟩ := Prod.mk.injEq .. ▸ h
      refine ⟨[], by rw [← h1]; simp, by simp⟩
    | ok u =>
      cases u
      cases hdb : env.dbRes tr commitStmt with
      | none => simp [applyStepsLoop, hs, runQuery, hdb] at h
      | some e2 =>
        simp only [applyStepsLoop, hs, runQuery, hdb] at h
        obtain ⟨h1, _⟩ := Prod.mk.injEq .. ▸ h
        refine ⟨[Ev.exec none none commitStmt false], by rw [← h1], ?_⟩
        intro ev hev
        rcases List.mem_singleton.mp hev with rfl
        exact Or.inr (Or.inr rfl)
  | cons step rest ih =>
    intro k tr tr2 e h
    cases hs : sendLog env ("Updating " ++ step.table ++ " (" ++ step.fileName ++ ")…") with
    | error e2 =>
      simp only [applyStepsLoop, hs] at h
      obtain ⟨h1, _⟩ := Prod.mk.injEq .. ▸ h
      refine ⟨[], by rw [← h1]; simp, by simp⟩
    | ok u =>
      cases u
      cases hload : env.loadStep k with
      | error e2 =>
        simp only [applyStepsLoop, hs, hload] at h
        obtain ⟨h1, _⟩ := Prod.mk.injEq .. ▸ h
        refine ⟨[Ev.fetch k], by rw [← h1], ?_⟩
        intro ev hev
        rcases List.mem_singleton.mp hev with rfl
        exact Or.inl ⟨k, rfl⟩
      | ok rawSql =>
        cases htrans : transformSqlForOptions rawSql step.table opts with
        | error e2 =>
          simp only [applyStepsLoop, hs, hload, htrans] at h
          obtain ⟨h1, _⟩ := Prod.mk.injEq .. ▸ h
          refine ⟨[Ev.fetch k], by rw [← h1], ?_⟩
          intro ev hev
          rcases List.mem_singleton.mp hev with rfl
          exact Or.inl ⟨k, rfl⟩
        | ok sql =>
          obtain ⟨d1, hd1, hd1t, _⟩ :=
            runStmtsFrom_shape env k (splitSqlStatements sql) (tr ++ [Ev.fetch k]) 0
          rcases hrun : runSqlSafely env k (tr ++ [Ev.fetch k]) sql with ⟨tr3, oe⟩
          have htr3 : tr3 = (tr ++ [Ev.fetch k]) ++ d1 := by
            have h2 : (runSqlSafely env k (tr ++ [Ev.fetch k]) sql).1 =
                (tr ++ [Ev.fetch k]) ++ d1 := by
              unfold runSqlSafely
              exact hd1
            rw [hrun] at h2
            exact h2
          have hd1shape : ∀ ev ∈ d1,
              ∃ k2 i s2 ok, ev = Ev.exec (some k2) (some i) s2 ok := by
            intro ev hev
            obtain ⟨j, _, hj⟩ := hd1t ev hev
            cases ev with
            | fetch k2 => simp [evTag] at hj
            | exec a b s2 ok =>
              cases a with
              | none => simp [evTag] at hj
              | some k2 =>
                cases b with
                | none => simp [evTag] at hj
                | some i => exact ⟨k2, i, s2, ok, rfl⟩
          have hshape1 : ∀ ev ∈ Ev.fetch k :: d1,
              (∃ k2, ev = Ev.fetch k2) ∨
              (∃ k2 i s2 ok, ev = Ev.exec (some k2) (some i) s2 ok) ∨
              ev = Ev.exec none none commitStmt false := by
            intro ev hev
            rcases List.mem_cons.mp hev with rfl | hev
            · exact Or.inl ⟨k, rfl⟩
            · exact Or.inr (Or.inl (hd1shape ev hev))
          cases oe with
          | none =>
            have h' : applyStepsLoop env opts rest (k + 1) tr3 = (tr2, some e) := by
              simpa [applyStepsLoop, hs, hload, htrans, hrun] using h
            obtain ⟨d2, hd2, hd2t⟩ := ih (k + 1) tr3 tr2 e h'
            refine ⟨Ev.fetch k :: (d1 ++ d2), by rw [hd2, htr3]; simp, ?_⟩
            intro ev hev
            rcases List.mem_cons.mp hev with rfl | hev
            · exact Or.inl ⟨k, rfl⟩
            · rcases List.mem_append.mp hev with h1 | h1
              · exact Or.inr (Or.inl (hd1shape ev h1))
              · exact hd2t ev h1
          | some e2 =>
            cases hs2 : sendLog env (errorLogLine step.table e2) with
            | error e3 =>
              have h' : (tr3, some e3) = (tr2, some e) := by
                simpa [applyStepsLoop, hs, hload, htrans, hrun, hs2] using h
              obtain ⟨h1, _⟩ := Prod.mk.injEq .. ▸ h'
              refine ⟨Ev.fetch k :: d1, by rw [← h1, htr3]; simp, hshape1⟩
            | ok u2 =>
              cases u2
              have h' : (tr3, some (enrichSqlError e2
                  { table := some step.table, stmtIndex := e2.metaStmtIndex,
                    preview := e2.metaPreview })) = (tr2, some e) := by
                simpa [applyStepsLoop, hs, hload, htrans, hrun, hs2] using h
              obtain ⟨h1, _⟩ := Prod.mk.injEq .. ▸ h'
              refine ⟨Ev.fetch k :: d1, by rw [← h1, htr3]; simp, hshape1⟩

/-- The executor's progress sink never throws (a non-function `onLog`, or a
sink that returns normally on every message). -/
def sinkSilent (env : ApplyEnv) : Prop :=
  ∀ msg, sendLog env msg = Except.ok ()

set_option maxHeartbeats 1000000 in
/-- Claim C1 (amended): once the two setup statements (FK disable, `START
TRANSACTION`) have succeeded, if the `try` body of `applyPlan` fails —
whatever the failure — with a non-throwing progress sink and no step
statement that is itself one of the executor's transaction-control strings,
then: no step data is published (full rollback under the transactional
semantics, with `COMMIT;` never issued successfully), a `ROLLBACK;` is
attempted, a failure of that `ROLLBACK;` is silently discarded — the
conclusion holds for every database oracle, however it answers the rollback,
and the caller still receives the body's error — the body's enriched error
is re-raised unchanged, and the FK re-enable attempt is the final command.
(The source's rollback `catch {}` is empty: a rollback failure is neither
re-thrown nor logged; console logging is outside this model.)  If one of
the two setup statements itself fails, `applyPlan` re-raises immediately
without rollback and without re-enabling foreign-key checks (see the
counterexample). -/
theorem c1_atomic_rollback_and_fk_restore (env : ApplyEnv) (plan : UpdatePlan)
    (tr2 : List Ev) (e : JsError)
    (hsink : sinkSilent env)
    (hfk0 : env.dbRes [] fkOffStmt = none)
    (hstart : env.dbRes [Ev.exec none none fkOffStmt true] startTxStmt = none)
    (hbody : applyStepsLoop env plan.options plan.steps 0
      [Ev.exec none none fkOffStmt true, Ev.exec none none startTxStmt true] = (tr2, some e))
    (hclean : ∀ k i s ok, Ev.exec (some k) (some i) s ok ∈ tr2 → ¬ s ∈ ctrlStrings) :
    ∃ trF, applyPlan env plan = (trF, Except.error e) ∧
      (txData trF).committed = [] ∧
      (∃ b, Ev.exec none none rollbackStmt b ∈ trF) ∧
      (∃ b, trF.getLast? = some (Ev.exec none none fkOnStmt b)) := by
  have happ : applyPlan env plan =
      (tr2 ++ [Ev.exec none none rollbackStmt ((env.dbRes tr2 rollbackStmt).isNone),
        Ev.exec none none fkOnStmt ((env.dbRes (tr2 ++
          [Ev.exec none none rollbackStmt ((env.dbRes tr2 rollbackStmt).isNone)])
          fkOnStmt).isNone)], Except.error e) := by
    cases hdb2 : env.dbRes tr2 rollbackStmt with
    | none =>
      cases hdb3 : env.dbRes (tr2 ++ [Ev.exec none none rollbackStmt true]) fkOnStmt with
      | none =>
        simp [applyPlan, hsink applyPlanFirstMsg, runQuery, hfk0, hstart, hbody,
          applyFinally, hdb2, hdb3]
      | some e3 =>
        simp [applyPlan, hsink applyPlanFirstMsg, runQuery, hfk0, hstart, hbody,
          applyFinally, hdb2, hdb3]
    | some e2 =>
      cases hdb3 : env.dbRes (tr2 ++ [Ev.exec none none rollbackStmt false]) fkOnStmt with
      | none =>
        simp [applyPlan, hsink applyPlanFirstMsg, runQuery, hfk0, hstart, hbody,
          applyFinally, hdb2, hdb3]
      | some e3 =>
        simp [applyPlan, hsink applyPlanFirstMsg, runQuery, hfk0, hstart, hbody,
          applyFinally, hdb2, hdb3]
  have key : ∀ (b1 b2 : Bool),
      (txData (tr2 ++ [Ev.exec none none rollbackStmt b1,
        Ev.exec none none fkOnStmt b2])).committed = [] := by
    intro b1 b2
    obtain ⟨d, hd, hdshape⟩ := applyStepsLoop_err env plan.options plan.steps 0
      [Ev.exec none none fkOffStmt true, Ev.exec none none startTxStmt true] tr2 e hbody
    have hinert : ∀ ev ∈ d, TxInert ev := by
      intro ev hev
      rcases hdshape ev hev with ⟨k2, rfl⟩ | ⟨k2, i, s2, ok, rfl⟩ | rfl
      · exact txInert_fetch k2
      · refine txInert_tagged k2 i s2 ok ?_
        refine hclean k2 i s2 ok ?_
        rw [hd]
        exact List.mem_append.mpr (Or.inr hev)
      · exact txInert_exec_false none none commitStmt
    unfold txData
    rw [hd, List.foldl_append, List.foldl_append]
    rw [txData_tail_committed]
    have hpre : List.foldl txApply { committed := [], pending := [], inTx := false }
        [Ev.exec none none fkOffStmt true, Ev.exec none none startTxStmt true] =
        ({ committed := [], pending := [], inTx := true } : TxState) := by decide
    rw [hpre]
    obtain ⟨p2, hp2⟩ := txFold_inert d hinert [] []
    rw [hp2]
  have hlast : ∀ (b1 b2 : Bool),
      (tr2 ++ [Ev.exec none none rollbackStmt b1,
        Ev.exec none none fkOnStmt b2]).getLast? =
        some (Ev.exec none none fkOnStmt b2) := by
    intro b1 b2
    rw [show tr2 ++ [Ev.exec none none rollbackStmt b1, Ev.exec none none fkOnStmt b2] =
      (tr2 ++ [Ev.exec none none rollbackStmt b1]) ++ [Ev.exec none none fkOnStmt b2] by simp]
    exact List.getLast?_concat _
  refine ⟨_, happ, key _ _, ⟨(env.dbRes tr2 rollbackStmt).isNone, by simp⟩, ⟨_, hlast _ _⟩⟩

/-- Oracle environment for the C1 witness: the setup statements succeed, the
second statement of the only step fails, and the rollback itself also fails
(so the witness also exercises the swallowed rollback failure). -/
def envC1 : ApplyEnv :=
  { dbRes := fun _ s =>
      if s = "BAD;" || s = rollbackStmt then some { message := "boom" } else none,
    loadStep := fun _ => Except.ok "INSERT INTO a VALUES (1); BAD;",
    onLog := none,
    sinkError := fun m => { message := m } }

/-- A concrete one-step plan for the C1 witness. -/
def planC1 : UpdatePlan :=
  { steps := [{ table := "a", group := "g", fileName := "a.zip :: a.sql", entryName := "a.sql" }],
    options := { includeChars := false, mode := "apply", truncate := false } }

/-- The trace of the `try` body of `applyPlan envC1 planC1`. -/
def tr2C1 : List Ev :=
  [Ev.exec none none fkOffStmt true, Ev.exec none none startTxStmt true,
   Ev.fetch 0, Ev.exec (some 0) (some 0) "INSERT INTO a VALUES (1);" true,
   Ev.exec (some 0) (some 1) "BAD;" false]

/-- The doubly enriched error escaping the `try` body of
`applyPlan envC1 planC1`. -/
def eC1 : JsError :=
  { message := "boom | stmtIndex=1 | preview=\"BAD;\" | table=a | stmtIndex=1 | preview=\"BAD;\"",
    metaTable := some "a", metaStmtIndex := some 1, metaPreview := some "BAD;" }

/-- Witness for C1: the amended atomicity theorem applied to a concrete
failing one-step plan whose rollback also fails. -/
theorem c1_witness :
    ∃ trF, applyPlan envC1 planC1 = (trF, Except.error eC1) ∧
      (txData trF).committed = [] ∧
      (∃ b, Ev.exec none none rollbackStmt b ∈ trF) ∧
      (∃ b, trF.getLast? = some (Ev.exec none none fkOnStmt b)) :=
  c1_atomic_rollback_and_fk_restore envC1 planC1 tr2C1 eC1
    (fun _ => rfl) (by decide) (by decide) rfl
    (by
      intro k i s ok h
      simp [tr2C1] at h
      rcases h with ⟨_, _, rfl, _⟩ | ⟨_, _, rfl, _⟩ <;> decide)

/-- Oracle environment for the C1 counterexample: the very first setup
statement (`SET FOREIGN_KEY_CHECKS=0;`) is rejected by the database. -/
def envC1cx : ApplyEnv :=
  { dbRes := fun _ s => if s = fkOffStmt then some { message := "down" } else none,
    loadStep := fun _ => Except.ok "SELECT 1;",
    onLog := none,
    sinkError := fun m => { message := m } }

/-- Counterexample for C1: when the FK-disable setup statement fails, the
whole call fails before the `try`/`finally` is entered, so
`SET FOREIGN_KEY_CHECKS=1;` is never executed — the claim's "re-executed as
a final step regardless of whether applyPlan succeeds or fails at any
point" does not hold for setup failures. -/
theorem c1_counterexample :
    applyPlan envC1cx planC1 =
      ([Ev.exec none none fkOffStmt false], Except.error { message := "down" }) ∧
    (∀ b, ¬ Ev.exec none none fkOnStmt b ∈ (applyPlan envC1cx planC1).1) := by
  exact ⟨rfl, by decide⟩

/-- The per-zip catalog loop behaves identically under any two progress
sinks: its `send` is `try { onProgress(m) } catch {}`. -/
theorem catalogZipLoop_sink_indep (env : CatalogEnv) :
    ∀ (zips : List (String × String)) (i total : Nat) (log : List CatMsg)
      (acc : List CatalogRow) (s1 s2 : CatMsg → Bool),
      catalogZipLoop env s1 zips i total log acc =
        catalogZipLoop env s2 zips i total log acc := by
  intro zips
  induction zips with
  | nil => intro i total log acc s1 s2; rfl
  | cons z rest ih =>
    intro i total log acc s1 s2
    rcases z with ⟨name, path⟩
    cases hz : env.zipEntriesRes path with
    | error e =>
      simp only [catalogZipLoop, sendCat, hz]
      exact ih _ _ _ _ s1 s2
    | ok entries =>
      simp only [catalogZipLoop, sendCat, hz]
      exact ih _ _ _ _ s1 s2

/-- Oracle environment for C9: a healthy database and archive, but a
progress sink that throws on every invocation. -/
def envC9 : ApplyEnv :=
  { dbRes := fun _ _ => none,
    loadStep := fun _ => Except.ok "SELECT 1;",
    onLog := some (fun _ => true),
    sinkError := fun m => { message := m } }

/-- Counterexample for C9: with a sink that throws on its first invocation,
`applyPlan` rejects with the sink's exception before issuing a single
database command, although the plan has a step — the sink exception is not
swallowed and does abort plan execution. -/
theorem c9_counterexample :
    applyPlan envC9 planC1 = ([], Except.error { message := applyPlanFirstMsg }) ∧
    planC1.steps ≠ [] :=
  ⟨rfl, by decide⟩

/-- Claim C9 (amended): the progress-capable catalog builder swallows sink
exceptions — its outcome and its attempted message sequence are identical
under any two sinks — but `applyPlan` invokes its `onLog` callback
unguarded, so a sink that throws on the first log message aborts
`applyPlan` before any database command and its exception propagates to the
caller. -/
theorem c9_sink_swallowed_in_catalog_not_in_apply :
    (∀ (env : CatalogEnv) (ref : String) (s1 s2 : CatMsg → Bool),
        fetchWorldTableCatalogWithProgress env ref s1 =
          fetchWorldTableCatalogWithProgress env ref s2) ∧
    (∀ (env : ApplyEnv) (plan : UpdatePlan) (f : String → Bool),
        env.onLog = some f → f applyPlanFirstMsg = true →
        applyPlan env plan = ([], Except.error (env.sinkError applyPlanFirstMsg))) := by
  constructor
  · intro env ref s1 s2
    cases hres : env.resolveRes with
    | error e => simp [fetchWorldTableCatalogWithProgress, sendCat, hres]
    | ok ct =>
      rcases ct with ⟨commitSha, treeSha⟩
      cases htree : env.treeRes with
      | error e => simp [fetchWorldTableCatalogWithProgress, sendCat, hres, htree]
      | ok tree =>
        simp only [fetchWorldTableCatalogWithProgress, sendCat, hres, htree]
        rw [catalogZipLoop_sink_indep env _ _ _ _ _ s1 s2]
  · intro env plan f hf hthrow
    simp [applyPlan, sendLog, hf, hthrow]

/-- Witness for C9: the `applyPlan` part applied at a concrete environment
whose sink throws on every message. -/
theorem c9_witness :
    applyPlan envC9 planC1 = ([], Except.error (envC9.sinkError applyPlanFirstMsg)) :=
  c9_sink_swallowed_in_catalog_not_in_apply.2 envC9 planC1 (fun _ => true) rfl rfl

end WorldUpdater
